import Mathlib

/-!
# Kratos self-service hooks: registration method allow-list and immutable identifier traits

A shallow embedding of

* `selfservice/flow/settings/immutable_traits.go`
* `selfservice/hook/registration_method_allowlist.go`
* `selfservice/hook/settings_identifier_immutable.go`

and of `sanitizeImmutableIdentifierTraits` of `selfservice/strategy/profile`, of which
only the test is at hand and which is modelled from the specification.

Go pointers that the code tests against `nil` are `Option`s, a Go function that
mutates the flow it is handed and returns an `error` is a function returning the
flow after the call together with `Option Error`, and a Go `map[K]struct{}` is a
duplicate-free list of its keys.

The flow's `InternalContext` is a JSON document read with `gjson` and written with
`sjson`.  Those two libraries are external to the repository; they are embedded by
what they do on a JSON object addressed by a whole key: the document is either
absent (nil or empty bytes) or an object whose members are held in document order,
object keys being unique as in every document `sjson` wrote itself.

The traits documents that the profile strategy compares are JSON trees, objects inside
objects, read and written along the member names of a dotted path.
-/

namespace Kratos

/-! ## JSON values as `gjson` exposes them -/

/-- A JSON value that is not inspected further, as `gjson.Result` exposes it:
either a JSON string, or any other value (number, boolean, null, object, nested
array) together with the text `Result.String()` yields for it. -/
inductive Item where
  | str (s : String)
  | other (text : String)
  deriving DecidableEq, Repr

/-- Field `Result.Str`: the string of a JSON string, empty for every other value. -/
def Item.Str : Item → String
  | .str s => s
  | .other _ => ""

/-- Method `Result.String()`: the string of a JSON string, the text of any other value. -/
def Item.asString : Item → String
  | .str s => s
  | .other text => text

/-- A value stored under a key of the context document. -/
inductive Value where
  | null
  | list (items : List Item)
  | item (i : Item)
  deriving DecidableEq, Repr

/-- Method `Result.Array()`: the elements of an array, nothing for `null`, and the
value itself as the only element for every other value. -/
def Value.Array : Value → List Item
  | .null => []
  | .list items => items
  | .item i => [i]

/-- The raw JSON bytes of a flow's internal context: `none` for nil or empty bytes,
otherwise the members of the JSON object in document order. -/
abbrev Document := Option (List (String × Value))

/-- Errors the embedded code can return. -/
inductive Error where
  | pathCannotBeEmpty
  | unmarshal
  | unknownRegistrationMethod (method : String)
  | collaborator (reason : String)
  | validation (path : String)
  deriving DecidableEq, Repr

/-- Function `gjson.GetBytes(json, path)`: `none` is a result that does not exist. -/
def GetBytes (json : Document) (path : String) : Option Value :=
  match json with
  | none => none
  | some members => members.lookup path

/-- Replace the value of the first member named `key`, or append a new member. -/
def setMember (key : String) (value : Value) : List (String × Value) → List (String × Value)
  | [] => [(key, value)]
  | (k, v) :: rest =>
    if k = key then (key, value) :: rest else (k, v) :: setMember key value rest

/-- Function `sjson.SetBytes(json, path, value)`: the document returned and the error.
An empty path is rejected and hands back the document as it was; an absent document
becomes an object with the one member. -/
def SetBytes (json : Document) (path : String) (value : Value) : Document × Option Error :=
  if path = "" then (json, some Error.pathCannotBeEmpty)
  else
    match json with
    | none => (some [(path, value)], none)
    | some members => (some (setMember path value members), none)

/-- Function `sjson.DeleteBytes(json, path)`: the document returned and the error.
An empty path is rejected; deleting a member that is not there changes nothing. -/
def DeleteBytes (json : Document) (path : String) : Document × Option Error :=
  if path = "" then (json, some Error.pathCannotBeEmpty)
  else
    match json with
    | none => (none, none)
    | some members => (some (members.filter (fun kv => decide (kv.1 ≠ path))), none)

/-! ## JSON documents addressed by dotted paths -/

mutual
/-- A JSON value of a traits document. -/
inductive Json where
  | null
  | bool (b : Bool)
  | number (text : String)
  | string (s : String)
  | array (items : JsonList)
  | object (members : JsonMembers)
  deriving DecidableEq, Repr
/-- The elements of a JSON array. -/
inductive JsonList where
  | nil
  | cons (head : Json) (tail : JsonList)
  deriving DecidableEq, Repr
/-- The members of a JSON object, in document order. -/
inductive JsonMembers where
  | nil
  | cons (key : String) (value : Json) (tail : JsonMembers)
  deriving DecidableEq, Repr
end

/-- The value of the first member of that name. -/
def JsonMembers.find (key : String) : JsonMembers → Option Json
  | JsonMembers.nil => none
  | JsonMembers.cons k v tail => if k = key then some v else tail.find key

/-- Replace the value of the first member of that name, or append a new member. -/
def JsonMembers.replace (key : String) (value : Json) : JsonMembers → JsonMembers
  | JsonMembers.nil => JsonMembers.cons key value JsonMembers.nil
  | JsonMembers.cons k v tail =>
    if k = key then JsonMembers.cons key value tail
    else JsonMembers.cons k v (tail.replace key value)

/-- The members of an object; a value that is not an object has none. -/
def Json.members : Json → JsonMembers
  | Json.object members => members
  | _ => JsonMembers.nil

/-- Dotted-path addressing, reading: the value reached by going from member to member
along the segments of the path; `none` when a member on the way is not there. -/
def Json.get : List String → Json → Option Json
  | [], json => some json
  | segment :: rest, json =>
    match json.members.find segment with
    | none => none
    | some child => Json.get rest child

/-- Dotted-path addressing, writing: the document with the value stored at the path;
objects on the way are kept with their other members, and an object is put where the
way leads through a member that is absent or is not an object. -/
def Json.set : List String → Json → Json → Json
  | [], _, value => value
  | segment :: rest, json, value =>
    Json.object (json.members.replace segment
      (Json.set rest ((json.members.find segment).getD (Json.object JsonMembers.nil)) value))

/-! ## Package `identity` -/

/-- Go `type CredentialsType string`. -/
abbrev CredentialsType := String

/-- An identity as far as the hooks look at it. -/
structure Identity where
  SchemaID : String
  Traits : Json
  deriving DecidableEq, Repr

/-! ## Package `selfservice/flow/settings` -/

namespace settings

/-- The settings flow: its bound identity and its internal context. -/
structure Flow where
  ID : String
  Identity : Option Identity
  InternalContext : Document
  deriving DecidableEq, Repr

/-- The key used to persist immutable identifier traits on the flow. -/
def InternalContextKeyImmutableIdentifierTraits : String := "immutable_identifier_traits"

/-- Modelled from the spec: the method `Flow.EnsureInternalContext` is not among the
sources; it "sets the document to an empty object if currently nil/empty" and is
idempotent. -/
def Flow.EnsureInternalContext (flow : Flow) : Flow :=
  match flow.InternalContext with
  | none => { flow with InternalContext := some [] }
  | some _ => flow

/-- Function `slices.Sort` on strings: ascending in the byte order of the strings. -/
def slicesSort (s : List String) : List String := s.insertionSort (fun a b => a ≤ b)

/-- Function `slices.Compact`: every run of consecutive equal elements is replaced by
its first element. -/
def slicesCompact : List String → List String
  | [] => []
  | [a] => [a]
  | a :: b :: rest => if a = b then slicesCompact (a :: rest) else a :: slicesCompact (b :: rest)

/-- SetImmutableIdentifierTraits persists the immutable identifier trait paths on the
given flow.  The result is the flow after the call and the returned error. -/
def SetImmutableIdentifierTraits (flow : Option Flow) (traits : List String) :
    Option Flow × Option Error :=
  match flow with
  | none => (none, none)
  | some flow =>
    if traits.length = 0 then
      let r := DeleteBytes flow.InternalContext InternalContextKeyImmutableIdentifierTraits
      (some { flow with InternalContext := r.1 }, r.2)
    else
      let flow := flow.EnsureInternalContext
      let copyTraits := traits
      let copyTraits := slicesSort copyTraits
      let copyTraits := slicesCompact copyTraits
      let r := SetBytes flow.InternalContext InternalContextKeyImmutableIdentifierTraits
        (Value.list (copyTraits.map Item.str))
      (some { flow with InternalContext := r.1 }, r.2)

/-- ImmutableIdentifierTraits returns the immutable identifier traits stored on the flow
(a nil slice is the empty list). -/
def ImmutableIdentifierTraits (flow : Option Flow) : List String :=
  match flow with
  | none => []
  | some flow =>
    match GetBytes flow.InternalContext InternalContextKeyImmutableIdentifierTraits with
    | none => []
    | some raw =>
      raw.Array.foldl (fun traits v => if v.Str ≠ "" then traits ++ [v.Str] else traits) []

/-- The spec's words for what a write followed by a read yields:
`sorted(dedupe(filter(L, nonempty)))`. -/
def sortedDedupeNonempty (L : List String) : List String :=
  ((L.filter (fun s => decide (s ≠ ""))).dedup).insertionSort (fun a b => a ≤ b)

end settings

/-! ## Package `ui/node` and `ui/container` -/

/-- Go `type UiNodeGroup string`. -/
abbrev UiNodeGroup := String

/-- A UI node: its name, its credential-group label, its attribute kind and its value. -/
structure Node where
  Name : String
  Group : UiNodeGroup
  Kind : String
  Value : String
  deriving DecidableEq, Repr

/-- The UI container of a flow with its ordered node sequence. -/
structure Container where
  Action : String
  Method : String
  Nodes : List Node
  deriving DecidableEq, Repr

/-! ## Package `selfservice/flow/registration` -/

namespace registration

/-- The registration flow: its UI container (a pointer, possibly nil) and its internal
context. -/
structure Flow where
  ID : String
  UI : Option Container
  InternalContext : Document
  deriving DecidableEq, Repr

end registration

/-! ## Package `selfservice/hook`: the registration method allow-list -/

/-- The constants and tables of the packages `identity`, `ui/node`,
`selfservice/strategy/passkey` and `selfservice/strategy/webauthn` that the hook
refers to and that are not among the sources: they are parameters of the embedding. -/
structure Registry where
  CredentialsTypeProfile : CredentialsType
  CredentialsTypeCodeAuth : CredentialsType
  CredentialsTypePasskey : CredentialsType
  CredentialsTypeWebAuthn : CredentialsType
  AllCredentialTypes : List CredentialsType
  ToUiNodeGroup : CredentialsType → UiNodeGroup
  DefaultGroup : UiNodeGroup
  PasskeyInternalContextKeySessionData : String
  PasskeyInternalContextKeySessionOptions : String
  WebAuthnInternalContextKeySessionData : String
  WebAuthnInternalContextKeyWebauthnOptions : String

/-- Modelled from the spec: `identity.ParseCredentialsType` is not among the sources;
it is the registry's "parse-from-string", which yields the known credential type whose
canonical name is the given string and fails on every other string. -/
def ParseCredentialsType (R : Registry) (s : String) : Option CredentialsType :=
  R.AllCredentialTypes.find? (fun t => decide (t = s))

/-- Modelled from the spec: `flow.PrefixInternalContextKey` is not among the sources;
per-credential-type keys are "keyed by `credentialType + "." + suffix`". -/
def PrefixInternalContextKey (ct : CredentialsType) (suffix : String) : String :=
  ct ++ "." ++ suffix

namespace hook

/-- The decoded hook configuration. -/
structure registrationMethodAllowListConfig where
  Allowed : List String
  deriving DecidableEq, Repr

/-- A `json.RawMessage` handed to the constructor, by what `json.Unmarshal` makes of
it: no bytes at all, bytes that do not decode, or bytes decoding to a configuration. -/
inductive RawMessage where
  | empty
  | malformed
  | decodes (cfg : registrationMethodAllowListConfig)
  deriving DecidableEq, Repr

/-- The hook.  Its Go field is a `map[identity.CredentialsType]struct{}`: the list
holds the keys of the map, each once, in the order in which `range` visits them. -/
structure RegistrationMethodAllowListHook where
  allowed : List CredentialsType
  deriving DecidableEq, Repr

/-- Go `m[k] = struct{}{}` on a set kept as a duplicate-free key list. -/
def mapInsert (m : List CredentialsType) (k : CredentialsType) : List CredentialsType :=
  if k ∈ m then m else m ++ [k]

def internalContextAllowedMethodsKey : String := "registration_allowed_methods"

/-- The loop `for _, method := range cfg.Allowed` of the constructor, on the methods
still to visit and the map built so far. -/
def collectAllowed (R : Registry) :
    List String → List CredentialsType → Except Error (List CredentialsType)
  | [], allowed => Except.ok allowed
  | method :: rest, allowed =>
    if method = "" then collectAllowed R rest allowed
    else if method = R.CredentialsTypeProfile then
      collectAllowed R rest (mapInsert allowed R.CredentialsTypeProfile)
    else
      match ParseCredentialsType R method with
      | none => Except.error (Error.unknownRegistrationMethod method)
      | some ct => collectAllowed R rest (mapInsert allowed ct)

/-- The list the constructor loops over: the configured one, or the code method alone
when the configured list is empty. -/
def effectiveAllowed (R : Registry) (cfg : registrationMethodAllowListConfig) : List String :=
  if cfg.Allowed.length = 0 then [R.CredentialsTypeCodeAuth] else cfg.Allowed

def NewRegistrationMethodAllowListHook (R : Registry) (raw : RawMessage) :
    Except Error RegistrationMethodAllowListHook :=
  let decoded : Except Error registrationMethodAllowListConfig :=
    match raw with
    | RawMessage.empty => Except.ok { Allowed := [] }
    | RawMessage.malformed => Except.error Error.unmarshal
    | RawMessage.decodes cfg => Except.ok cfg
  match decoded with
  | Except.error err => Except.error err
  | Except.ok cfg =>
    match collectAllowed R (effectiveAllowed R cfg) [R.CredentialsTypeProfile] with
    | Except.error err => Except.error err
    | Except.ok allowed => Except.ok { allowed := allowed }

def setAllowedRegistrationMethods (regFlow : registration.Flow)
    (allowed : List CredentialsType) : registration.Flow × Option Error :=
  let methods := allowed.foldl (fun methods method => methods ++ [method]) []
  let r := SetBytes regFlow.InternalContext internalContextAllowedMethodsKey
    (Value.list (methods.map Item.str))
  ({ regFlow with InternalContext := r.1 }, r.2)

def internalContextCleanupSuffixes (R : Registry) (ct : CredentialsType) : Option (List String) :=
  if ct = R.CredentialsTypePasskey then
    some [R.PasskeyInternalContextKeySessionData, R.PasskeyInternalContextKeySessionOptions]
  else if ct = R.CredentialsTypeWebAuthn then
    some [R.WebAuthnInternalContextKeySessionData, R.WebAuthnInternalContextKeyWebauthnOptions]
  else none

def filterNodesByGroup (regFlow : registration.Flow) (group : UiNodeGroup) : registration.Flow :=
  match regFlow.UI with
  | none => regFlow
  | some ui =>
    let filtered := ui.Nodes.foldl
      (fun filtered n => if n.Group = group then filtered else filtered ++ [n]) []
    { regFlow with UI := some { ui with Nodes := filtered } }

/-- The loop `for _, suffix := range suffixes` of `removeFlowArtifacts`: it stops at
the first deletion that fails, the flow keeping what was done until then. -/
def deleteSuffixes (ct : CredentialsType) :
    List String → registration.Flow → registration.Flow × Option Error
  | [], regFlow => (regFlow, none)
  | suffix :: rest, regFlow =>
    let r := DeleteBytes regFlow.InternalContext (PrefixInternalContextKey ct suffix)
    let regFlow := { regFlow with InternalContext := r.1 }
    match r.2 with
    | some err => (regFlow, some err)
    | none => deleteSuffixes ct rest regFlow

def removeFlowArtifacts (R : Registry) (regFlow : registration.Flow) (ct : CredentialsType) :
    registration.Flow × Option Error :=
  let group := R.ToUiNodeGroup ct
  let regFlow :=
    if group ≠ "" ∧ group ≠ R.DefaultGroup then filterNodesByGroup regFlow group else regFlow
  match internalContextCleanupSuffixes R ct with
  | some suffixes => deleteSuffixes ct suffixes regFlow
  | none => (regFlow, none)

/-- AllowedRegistrationMethods returns the set of credential types permitted for this
flow (a nil map is the empty key list). -/
def AllowedRegistrationMethods (R : Registry) (regFlow : registration.Flow) :
    List CredentialsType :=
  match GetBytes regFlow.InternalContext internalContextAllowedMethodsKey with
  | none => []
  | some raw =>
    raw.Array.foldl
      (fun allowed v =>
        if v.asString = R.CredentialsTypeProfile then mapInsert allowed R.CredentialsTypeProfile
        else
          match ParseCredentialsType R v.asString with
          | none => allowed
          | some ct => mapInsert allowed ct)
      []

/-- The loop `for _, ct := range identity.AllCredentialTypes` of `PruneRegistrationFlow`. -/
def pruneTypes (R : Registry) (allowed : List CredentialsType) :
    List CredentialsType → registration.Flow → registration.Flow × Option Error
  | [], regFlow => (regFlow, none)
  | ct :: rest, regFlow =>
    if ct ∈ allowed then pruneTypes R allowed rest regFlow
    else
      match removeFlowArtifacts R regFlow ct with
      | (regFlow, some err) => (regFlow, some err)
      | (regFlow, none) => pruneTypes R allowed rest regFlow

/-- PruneRegistrationFlow removes UI nodes and state belonging to disallowed strategies. -/
def PruneRegistrationFlow (R : Registry) (regFlow : registration.Flow) :
    registration.Flow × Option Error :=
  let allowed := AllowedRegistrationMethods R regFlow
  if allowed.length = 0 then (regFlow, none)
  else pruneTypes R allowed R.AllCredentialTypes regFlow

def ExecuteRegistrationPreHook (R : Registry) (h : RegistrationMethodAllowListHook)
    (regFlow : registration.Flow) : registration.Flow × Option Error :=
  match setAllowedRegistrationMethods regFlow h.allowed with
  | (regFlow, some err) => (regFlow, some err)
  | (regFlow, none) => PruneRegistrationFlow R regFlow

/-- The UI node sequence of a flow; a flow without UI container has no nodes. -/
def nodesOf (regFlow : registration.Flow) : List Node :=
  match regFlow.UI with
  | none => []
  | some ui => ui.Nodes

/-- Go `regFlow.UI.Nodes = append(regFlow.UI.Nodes, extra...)`, a later hydration pass
as the test simulates it; `none` is the nil dereference on a flow without UI container. -/
def appendNodes (regFlow : registration.Flow) (extra : List Node) : Option registration.Flow :=
  match regFlow.UI with
  | none => none
  | some ui => some { regFlow with UI := some { ui with Nodes := ui.Nodes ++ extra } }

/-- The context keys registered for cleaning up after a credential type. -/
def cleanupKeys (R : Registry) (ct : CredentialsType) : List String :=
  match internalContextCleanupSuffixes R ct with
  | none => []
  | some suffixes => suffixes.map (PrefixInternalContextKey ct)

/-- A registry for the examples: the credential types of the spec's glossary with the
method allow-list test's groups, the profile method rendering into the shared group. -/
def exampleRegistry : Registry where
  CredentialsTypeProfile := "profile"
  CredentialsTypeCodeAuth := "code"
  CredentialsTypePasskey := "passkey"
  CredentialsTypeWebAuthn := "webauthn"
  AllCredentialTypes := ["password", "webauthn", "code", "passkey", "profile"]
  ToUiNodeGroup := fun ct =>
    if ct = "password" then "password"
    else if ct = "webauthn" then "webauthn"
    else if ct = "code" then "code"
    else if ct = "passkey" then "passkey"
    else "default"
  DefaultGroup := "default"
  PasskeyInternalContextKeySessionData := "session_data"
  PasskeyInternalContextKeySessionOptions := "session_options"
  WebAuthnInternalContextKeySessionData := "session_data"
  WebAuthnInternalContextKeyWebauthnOptions := "webauthn_options"

/-- The groups `removeFlowArtifacts` filters out for a credential type: its mapped
group, unless that is empty or the shared group. -/
def groupsOf (R : Registry) (ct : CredentialsType) : List UiNodeGroup :=
  if R.ToUiNodeGroup ct ≠ "" ∧ R.ToUiNodeGroup ct ≠ R.DefaultGroup then [R.ToUiNodeGroup ct]
  else []

/-- A flow without the nodes of the given groups and without the given context keys. -/
def without (regFlow : registration.Flow) (groups : List UiNodeGroup) (keys : List String) :
    registration.Flow :=
  { regFlow with
    UI := regFlow.UI.map
      (fun ui => { ui with Nodes := ui.Nodes.filter (fun n => decide (n.Group ∉ groups)) })
    InternalContext := regFlow.InternalContext.map
      (fun members => members.filter (fun kv => decide (kv.1 ∉ keys))) }

/-- The known credential types that are not in the allow-set. -/
def disallowed (allowed types : List CredentialsType) : List CredentialsType :=
  types.filter (fun ct => decide (ct ∉ allowed))

/-- The string forms of the elements persisted under `registration_allowed_methods`. -/
def persistedNames (regFlow : registration.Flow) : List String :=
  match GetBytes regFlow.InternalContext internalContextAllowedMethodsKey with
  | none => []
  | some raw => raw.Array.map Item.asString

/-- What `PruneRegistrationFlow` filters out of the UI for an allow-set. -/
def prunedGroups (R : Registry) (allowed : List CredentialsType) : List UiNodeGroup :=
  (disallowed allowed R.AllCredentialTypes).flatMap (groupsOf R)

/-- What `PruneRegistrationFlow` deletes from the context document for an allow-set. -/
def prunedKeys (R : Registry) (allowed : List CredentialsType) : List String :=
  (disallowed allowed R.AllCredentialTypes).flatMap (cleanupKeys R)

/-- The flow of the allow-list test: a code node, a passkey node and a WebAuthn node,
and both passkey context keys populated. -/
def testFlow : registration.Flow where
  ID := "test"
  UI := some
    { Action := "/registration"
      Method := "POST"
      Nodes :=
        [ { Name := "method", Group := "code", Kind := "hidden", Value := "code" },
          { Name := "passkey_register", Group := "passkey", Kind := "hidden", Value := "" },
          { Name := "webauthn_node", Group := "webauthn", Kind := "hidden", Value := "" } ] }
  InternalContext := some
    [ ("passkey.session_data", Value.item (Item.other "1")),
      ("passkey.session_options", Value.item (Item.other "2")) ]

/-- The test flow with a persisted allow-list none of whose entries is a credential type. -/
def unparsableListFlow : registration.Flow :=
  { testFlow with
    InternalContext := some
      [ ("registration_allowed_methods", Value.list [Item.str "bogus"]),
        ("passkey.session_data", Value.item (Item.other "1")) ] }

/-- The test flow with the allow-list of the test persisted on it. -/
def codeOnlyFlow : registration.Flow :=
  { testFlow with
    InternalContext := some
      [ ("registration_allowed_methods", Value.list [Item.str "code", Item.str "profile"]),
        ("passkey.session_data", Value.item (Item.other "1")) ] }

/-- The test flow after the pre-hook of the test has run and the passkey nodes have been
hydrated again. -/
def rehydratedFlow : registration.Flow where
  ID := "test"
  UI := some
    { Action := "/registration"
      Method := "POST"
      Nodes :=
        [ { Name := "method", Group := "code", Kind := "hidden", Value := "code" },
          { Name := "passkey_register_trigger", Group := "passkey", Kind := "button",
            Value := "" },
          { Name := "passkey_register", Group := "passkey", Kind := "hidden", Value := "" } ] }
  InternalContext := some
    [ ("registration_allowed_methods", Value.list [Item.str "code", Item.str "profile"]) ]

/-- The passkey nodes the test hydrates again after the hook has run. -/
def rehydratedNodes : List Node :=
  [ { Name := "passkey_register_trigger", Group := "passkey", Kind := "button", Value := "" },
    { Name := "passkey_register", Group := "passkey", Kind := "hidden", Value := "" } ]

end hook

/-! ## Package `selfservice/hook`: immutable identifier traits of the settings flow -/

namespace hook

/-- Go `strings.HasPrefix(s, root)`. -/
def HasPrefix (s root : String) : Bool := root.data.isPrefixOf s.data

/-- A Go struct with the one field `Identifier bool`. -/
structure IdentifierFlag where
  Identifier : Bool
  deriving DecidableEq, Repr

/-- The fields of `schema.ExtensionConfig.Credentials` that the hook reads. -/
structure ExtensionCredentials where
  Password : IdentifierFlag
  WebAuthn : IdentifierFlag
  Code : IdentifierFlag
  deriving DecidableEq, Repr

/-- The type `schema.ExtensionConfig`, whose declaration is not among the sources, as
far as the hook reads it. -/
structure ExtensionConfig where
  Credentials : ExtensionCredentials
  deriving DecidableEq, Repr

/-- A value of the Go map `CustomProperties`, an `interface{}`: a
`*schema.ExtensionConfig`, possibly nil, or a value of any other type. -/
inductive CustomProperty where
  | extensionConfig (cfg : Option ExtensionConfig)
  | other
  deriving DecidableEq, Repr

/-- A path as `jsonschemax.ListPaths` returns it. -/
structure Path where
  Name : String
  CustomProperties : List (String × CustomProperty)
  deriving DecidableEq, Repr

/-- An identity schema as far as the hook looks at it. -/
structure Schema where
  ID : String
  URL : String
  deriving DecidableEq, Repr

/-- The collaborators of the hook, none of them among the sources, by what their calls
return: the schema provider, the lookup by ID, the extension runner and the path
enumerator, and the constant `schema.ExtensionName`. -/
structure immutableIdentifierTraitsHookDependencies where
  ExtensionName : String
  IdentityTraitsSchemas : Except Error (List Schema)
  GetByID : List Schema → String → Except Error Schema
  NewExtensionRunner : Except Error Unit
  ListPaths : String → Except Error (List Path)

/-- ImmutableIdentifierTraitsHook collects identifier traits from the identity schema and
marks them as immutable for the settings flow. -/
structure ImmutableIdentifierTraitsHook where
  d : immutableIdentifierTraitsHookDependencies

def NewImmutableIdentifierTraitsHook (d : immutableIdentifierTraitsHookDependencies) :
    ImmutableIdentifierTraitsHook :=
  { d := d }

def hasIdentifierCredential (cfg : Option ExtensionConfig) : Bool :=
  match cfg with
  | none => false
  | some cfg =>
    if cfg.Credentials.Password.Identifier = true
        ∨ cfg.Credentials.WebAuthn.Identifier = true
        ∨ cfg.Credentials.Code.Identifier = true then true
    else false

/-- The loop `for _, p := range paths` of `ExecuteSettingsPreHook`, on the paths still
to visit and the slice `immutable` built so far. -/
def collectImmutable (extensionName : String) : List Path → List String → List String
  | [], immutable => immutable
  | p :: rest, immutable =>
    if !HasPrefix p.Name "traits." then collectImmutable extensionName rest immutable
    else
      match p.CustomProperties.lookup extensionName with
      | none => collectImmutable extensionName rest immutable
      | some CustomProperty.other => collectImmutable extensionName rest immutable
      | some (CustomProperty.extensionConfig none) =>
        collectImmutable extensionName rest immutable
      | some (CustomProperty.extensionConfig (some extensionConfig)) =>
        if hasIdentifierCredential (some extensionConfig) then
          collectImmutable extensionName rest (immutable ++ [p.Name])
        else collectImmutable extensionName rest immutable

/-- The pre-hook of the settings flow: the flow after the call and the returned error. -/
def ExecuteSettingsPreHook (h : ImmutableIdentifierTraitsHook) (flow : Option settings.Flow) :
    Option settings.Flow × Option Error :=
  match flow with
  | none => (none, none)
  | some f =>
    match f.Identity with
    | none => (some f, none)
    | some identity =>
      match h.d.IdentityTraitsSchemas with
      | Except.error err => (some f, some err)
      | Except.ok schemas =>
        match h.d.GetByID schemas identity.SchemaID with
        | Except.error err => (some f, some err)
        | Except.ok identitySchema =>
          match h.d.NewExtensionRunner with
          | Except.error err => (some f, some err)
          | Except.ok _ =>
            match h.d.ListPaths identitySchema.URL with
            | Except.error err => (some f, some err)
            | Except.ok paths =>
              settings.SetImmutableIdentifierTraits (some f)
                (collectImmutable h.d.ExtensionName paths [])

/-- A path's schema extension config marks it as the identifier of the password, the
WebAuthn or the code credential. -/
def marksIdentifier (extensionName : String) (p : Path) : Bool :=
  match p.CustomProperties.lookup extensionName with
  | some (CustomProperty.extensionConfig (some cfg)) =>
    cfg.Credentials.Password.Identifier || cfg.Credentials.WebAuthn.Identifier
      || cfg.Credentials.Code.Identifier
  | _ => false

/-- The names of the paths under the traits root that are marked as identifier. -/
def identifierTraits (extensionName : String) (paths : List Path) : List String :=
  (paths.filter (fun p => HasPrefix p.Name "traits." && marksIdentifier extensionName p)).map
    Path.Name

/-- The spec's words for what derivation persists: the names, sorted and deduplicated. -/
def sortedDedupe (names : List String) : List String :=
  (names.dedup).insertionSort (fun a b => a ≤ b)

/-! The registration functions on the pointer they are handed -/

/-- AllowedRegistrationMethods on a `*registration.Flow` that may be nil: its first
statement reads `regFlow.InternalContext` without a nil check, which on a nil pointer
is a nil dereference, here `none`. -/
def AllowedRegistrationMethodsOfPointer (R : Registry) (regFlow : Option registration.Flow) :
    Option (List CredentialsType) :=
  match regFlow with
  | none => none
  | some regFlow => some (AllowedRegistrationMethods R regFlow)

/-- PruneRegistrationFlow on a `*registration.Flow` that may be nil: its first statement
calls AllowedRegistrationMethods on the pointer; `none` is the nil dereference. -/
def PruneRegistrationFlowOfPointer (R : Registry) (regFlow : Option registration.Flow) :
    Option (registration.Flow × Option Error) :=
  match AllowedRegistrationMethodsOfPointer R regFlow, regFlow with
  | some _, some regFlow => some (PruneRegistrationFlow R regFlow)
  | _, _ => none

/-- The schema of the derivation scenario: `traits.email` is the identifier of the
password and of the code credential, no other path is annotated so. -/
def scenarioPaths : List Path :=
  [ { Name := "traits.email"
      CustomProperties :=
        [ ("ory.sh/kratos", CustomProperty.extensionConfig (some
            { Credentials :=
                { Password := { Identifier := true }
                  WebAuthn := { Identifier := false }
                  Code := { Identifier := true } } })) ] },
    { Name := "traits.name", CustomProperties := [] },
    { Name := "metadata_public.email"
      CustomProperties :=
        [ ("ory.sh/kratos", CustomProperty.extensionConfig (some
            { Credentials :=
                { Password := { Identifier := true }
                  WebAuthn := { Identifier := false }
                  Code := { Identifier := false } } })) ] } ]

/-- Collaborators that all succeed and enumerate the scenario's paths. -/
def scenarioDependencies : immutableIdentifierTraitsHookDependencies where
  ExtensionName := "ory.sh/kratos"
  IdentityTraitsSchemas := Except.ok [{ ID := "default", URL := "file://default.schema.json" }]
  GetByID := fun schemas id =>
    match schemas.find? (fun s => decide (s.ID = id)) with
    | some s => Except.ok s
    | none => Except.error (Error.collaborator "unknown schema")
  NewExtensionRunner := Except.ok ()
  ListPaths := fun _ => Except.ok scenarioPaths

/-- Collaborators whose path enumeration fails. -/
def failingDependencies : immutableIdentifierTraitsHookDependencies :=
  { scenarioDependencies with ListPaths := fun _ => Except.error (Error.collaborator "compile") }

/-- The identity of the scenarios, with the traits
`{"email":"foo@ory.sh","name":"Foo"}`. -/
def scenarioIdentity : Identity where
  SchemaID := "default"
  Traits := Json.object
    (JsonMembers.cons "email" (Json.string "foo@ory.sh")
      (JsonMembers.cons "name" (Json.string "Foo") JsonMembers.nil))

/-- A settings flow bound to an identity, with a list persisted earlier. -/
def scenarioSettingsFlow : settings.Flow where
  ID := "settings"
  Identity := some scenarioIdentity
  InternalContext := some
    [ ("immutable_identifier_traits", Value.list [Item.str "traits.name"]) ]

end hook

/-! ## Package `selfservice/strategy/profile` -/

namespace profile

/-- Modelled from the spec: the path of a trait inside the traits document, the traits
root taken off the immutable path (`traits.email` addresses `email`); how
`sanitizeImmutableIdentifierTraits` addresses the documents is not among the sources. -/
def traitKey (path : String) : String :=
  if hook.HasPrefix path "traits." then String.mk (path.data.drop 7) else path

/-- The characters of a dotted path, cut at every dot. -/
def splitDots : List Char → List (List Char)
  | [] => [[]]
  | c :: cs =>
    if c = '.' then [] :: splitDots cs
    else
      match splitDots cs with
      | [] => [[c]]
      | segment :: segments => (c :: segment) :: segments

/-- Modelled from the spec: "dotted-path addressing" of a trait inside the traits
document: the member names an immutable path leads through, below the traits root
(`traits.address.email` leads through `address` to `email`). -/
def traitPath (path : String) : List String :=
  (splitDots (traitKey path).data).map String.mk

/-- Modelled from the spec: the enforcement loop of `sanitizeImmutableIdentifierTraits`
over the immutable paths.  "For each immutable path, read the value at that path from
both documents using dotted-path addressing": absent from the candidate, "the merged
output's value at that path is taken from the current document"; present and equal,
"leave as-is"; present and different, "fail with a ValidationError naming the offending
path; no merged output is produced". -/
def sanitizePaths (current candidate : Json) : List String → Json → Except Error Json
  | [], merged => Except.ok merged
  | path :: rest, merged =>
    match candidate.get (traitPath path) with
    | none =>
      match current.get (traitPath path) with
      | none => sanitizePaths current candidate rest merged
      | some value =>
        sanitizePaths current candidate rest (merged.set (traitPath path) value)
    | some submitted =>
      if current.get (traitPath path) = some submitted then
        sanitizePaths current candidate rest merged
      else Except.error (Error.validation path)

/-- Modelled from the spec: `sanitizeImmutableIdentifierTraits` is not among the sources,
only its test is.  Its "inputs are the flow (carrying the persisted immutable-path
list), the identity's current traits document, and the candidate traits document
submitted by the client"; all fields of the candidate outside the immutable paths "pass
through unchanged". -/
def sanitizeImmutableIdentifierTraits (flow : settings.Flow) (identity : Identity)
    (traits : Json) : Except Error Json :=
  sanitizePaths identity.Traits traits (settings.ImmutableIdentifierTraits (some flow)) traits

/-- The flow of the test: `traits.email` is immutable. -/
def testSettingsFlow : settings.Flow where
  ID := "settings"
  Identity := none
  InternalContext := some
    [ ("immutable_identifier_traits", Value.list [Item.str "traits.email"]) ]

/-- The identity of the test, with the traits `{"email":"foo@ory.sh","name":"Foo"}`. -/
def testIdentity : Identity where
  SchemaID := "default"
  Traits := Json.object
    (JsonMembers.cons "email" (Json.string "foo@ory.sh")
      (JsonMembers.cons "name" (Json.string "Foo") JsonMembers.nil))

/-- The first candidate of the test, `{"name":"Bar"}`. -/
def renamedCandidate : Json :=
  Json.object (JsonMembers.cons "name" (Json.string "Bar") JsonMembers.nil)

/-- The second candidate of the test, `{"email":"bar@ory.sh"}`. -/
def changedEmailCandidate : Json :=
  Json.object (JsonMembers.cons "email" (Json.string "bar@ory.sh") JsonMembers.nil)

/-- A flow on which the nested path `traits.address.email` is immutable. -/
def nestedSettingsFlow : settings.Flow where
  ID := "settings"
  Identity := none
  InternalContext := some
    [ ("immutable_identifier_traits", Value.list [Item.str "traits.address.email"]) ]

/-- An identity with the traits `{"address":{"email":"foo@ory.sh","city":"Ulm"}}`. -/
def nestedIdentity : Identity where
  SchemaID := "default"
  Traits := Json.object
    (JsonMembers.cons "address"
      (Json.object
        (JsonMembers.cons "email" (Json.string "foo@ory.sh")
          (JsonMembers.cons "city" (Json.string "Ulm") JsonMembers.nil)))
      JsonMembers.nil)

end profile

/-! ## Lemmas on the context document -/

theorem lookup_setMember_self (key : String) (value : Value) (members : List (String × Value)) :
    (setMember key value members).lookup key = some value := by
  induction members with
  | nil => simp [setMember]
  | cons kv rest ih =>
    obtain ⟨k, v⟩ := kv
    by_cases hk : k = key
    · simp [setMember, hk]
    · have hb : (key == k) = false := by
        simp only [beq_eq_false_iff_ne, ne_eq]
        exact fun h => hk h.symm
      simp [setMember, hk, List.lookup_cons, hb, ih]

theorem lookup_setMember_ne (key other : String) (value : Value)
    (members : List (String × Value)) (h : other ≠ key) :
    (setMember key value members).lookup other = members.lookup other := by
  induction members with
  | nil =>
    have hb : (other == key) = false := by simpa using h
    simp [setMember, List.lookup_cons, hb]
  | cons kv rest ih =>
    obtain ⟨k, v⟩ := kv
    by_cases hk : k = key
    · subst hk
      have hb : (other == k) = false := by simpa using h
      simp [setMember, List.lookup_cons, hb]
    · by_cases ho : other = k
      · subst ho
        simp [setMember, hk]
      · have hb : (other == k) = false := by simpa using ho
        simp [setMember, hk, List.lookup_cons, hb, ih]

theorem lookup_filter_keys (p : String → Bool) (key : String)
    (members : List (String × Value)) :
    (members.filter (fun kv => p kv.1)).lookup key
      = if p key then members.lookup key else none := by
  induction members with
  | nil => simp
  | cons kv rest ih =>
    obtain ⟨k, v⟩ := kv
    by_cases hk : key = k
    · subst hk
      by_cases hp : p key
      · simp [List.filter_cons, hp]
      · simp [List.filter_cons, hp, ih]
    · have hb : (key == k) = false := by simpa using hk
      by_cases hp : p k
      · simp [List.filter_cons, hp, List.lookup_cons, hb, ih]
      · simp [List.filter_cons, hp, List.lookup_cons, hb, ih]

theorem filter_keys_eq_self_of_lookup_none (key : String) (members : List (String × Value))
    (h : members.lookup key = none) :
    members.filter (fun kv => decide (kv.1 ≠ key)) = members := by
  induction members with
  | nil => simp
  | cons kv rest ih =>
    obtain ⟨k, v⟩ := kv
    by_cases hk : key = k
    · subst hk
      simp at h
    · have hb : (key == k) = false := by simpa using hk
      have hk' : k ≠ key := fun e => hk e.symm
      simp only [List.lookup_cons, hb] at h
      have hd : decide ((k, v).1 ≠ key) = true := by simpa using hk'
      rw [List.filter_cons, if_pos hd, ih h]

theorem GetBytes_SetBytes_self (json : Document) (path : String) (value : Value)
    (h : path ≠ "") : GetBytes (SetBytes json path value).1 path = some value := by
  cases json with
  | none => simp [SetBytes, h, GetBytes]
  | some members => simp [SetBytes, h, GetBytes, lookup_setMember_self]

theorem GetBytes_DeleteBytes_self (json : Document) (path : String) (h : path ≠ "") :
    GetBytes (DeleteBytes json path).1 path = none := by
  cases json with
  | none => simp [DeleteBytes, h, GetBytes]
  | some members =>
    have := lookup_filter_keys (fun k => decide (k ≠ path)) path members
    simp only [DeleteBytes, h, if_false, GetBytes]
    rw [this]
    simp

theorem DeleteBytes_absent (json : Document) (path : String)
    (h : GetBytes json path = none) : (DeleteBytes json path).1 = json := by
  cases json with
  | none =>
    by_cases hp : path = "" <;> simp [DeleteBytes, hp]
  | some members =>
    by_cases hp : path = ""
    · simp [DeleteBytes, hp]
    · simp only [GetBytes] at h
      simp only [DeleteBytes, hp, if_false]
      rw [filter_keys_eq_self_of_lookup_none path members h]

theorem SetBytes_ok (json : Document) (path : String) (value : Value) (h : path ≠ "") :
    (SetBytes json path value).2 = none := by
  cases json <;> simp [SetBytes, h]

theorem DeleteBytes_ok (json : Document) (path : String) (h : path ≠ "") :
    (DeleteBytes json path).2 = none := by
  cases json <;> simp [DeleteBytes, h]

/-! ## Immutable identifier traits on the settings flow -/

namespace settings

theorem InternalContextKeyImmutableIdentifierTraits_ne_empty :
    InternalContextKeyImmutableIdentifierTraits ≠ "" := by decide

theorem mem_slicesCompact (s : String) (l : List String) : s ∈ slicesCompact l ↔ s ∈ l := by
  induction l using slicesCompact.induct with
  | case1 => simp [slicesCompact]
  | case2 a => simp [slicesCompact]
  | case3 a rest ih =>
    rw [slicesCompact, if_pos rfl, ih]
    simp
  | case4 a b rest hne ih =>
    rw [slicesCompact, if_neg hne, List.mem_cons, ih]
    simp

theorem sorted_slicesCompact (l : List String) (h : l.Sorted (fun a b => a ≤ b)) :
    (slicesCompact l).Sorted (fun a b => a < b) := by
  induction l using slicesCompact.induct with
  | case1 => simp [slicesCompact]
  | case2 a => simp [slicesCompact]
  | case3 a rest ih =>
    rw [slicesCompact, if_pos rfl]
    exact ih (List.Sorted.of_cons h)
  | case4 a b rest hne ih =>
    rw [slicesCompact, if_neg hne]
    have htail : (b :: rest).Sorted (fun a b => a ≤ b) := List.Sorted.of_cons h
    refine List.sorted_cons.2 ⟨?_, ih htail⟩
    intro x hx
    have hx' : x ∈ b :: rest := (mem_slicesCompact x (b :: rest)).1 hx
    have hab : a ≤ b := List.rel_of_sorted_cons h b (List.mem_cons_self b rest)
    have hbx : b ≤ x := by
      rcases List.mem_cons.1 hx' with e | e
      · exact e ▸ le_refl b
      · exact List.rel_of_sorted_cons htail x e
    exact lt_of_lt_of_le (lt_of_le_of_ne hab hne) hbx

theorem foldl_collect {α β : Type} (p : α → Prop) [DecidablePred p] (f : α → β)
    (l : List α) (init : List β) :
    l.foldl (fun acc v => if p v then acc ++ [f v] else acc) init
      = init ++ (l.filter (fun v => decide (p v))).map f := by
  induction l generalizing init with
  | nil => simp
  | cons a rest ih =>
    by_cases hp : p a
    · simp [List.foldl_cons, hp, ih, List.filter_cons]
    · simp [List.foldl_cons, hp, ih, List.filter_cons]

theorem read_stored_strings (flow : Flow) (stored : List String)
    (h : GetBytes flow.InternalContext InternalContextKeyImmutableIdentifierTraits
      = some (Value.list (stored.map Item.str))) :
    ImmutableIdentifierTraits (some flow) = stored.filter (fun s => decide (s ≠ "")) := by
  simp only [ImmutableIdentifierTraits, h, Value.Array]
  rw [foldl_collect (fun v : Item => v.Str ≠ "") Item.Str, List.nil_append, List.filter_map,
    List.map_map]
  have hid : (Item.Str ∘ Item.str) = id := by
    funext x
    rfl
  have hp : ((fun v : Item => decide (v.Str ≠ "")) ∘ Item.str)
      = (fun s : String => decide (s ≠ "")) := by
    funext x
    rfl
  rw [hid, hp, List.map_id]

theorem sorted_sortedDedupeNonempty (L : List String) :
    (sortedDedupeNonempty L).Sorted (fun a b => a < b) := by
  unfold sortedDedupeNonempty
  exact List.Sorted.lt_of_le (List.sorted_insertionSort _ _)
    ((List.perm_insertionSort _ _).nodup_iff.2 (List.nodup_dedup _))

theorem mem_sortedDedupeNonempty (s : String) (L : List String) :
    s ∈ sortedDedupeNonempty L ↔ s ∈ L ∧ s ≠ "" := by
  unfold sortedDedupeNonempty
  rw [List.mem_insertionSort, List.mem_dedup, List.mem_filter]
  simp

theorem stored_filter_eq_spec (L : List String) :
    (slicesCompact (slicesSort L)).filter (fun s => decide (s ≠ "")) = sortedDedupeNonempty L := by
  have hs : ((slicesCompact (slicesSort L)).filter (fun s => decide (s ≠ ""))).Sorted
      (fun a b => a < b) :=
    List.Sorted.filter _ (sorted_slicesCompact _ (List.sorted_insertionSort _ _))
  have hs' := sorted_sortedDedupeNonempty L
  refine List.eq_of_perm_of_sorted ?_ hs hs'
  refine (List.perm_ext_iff_of_nodup hs.nodup hs'.nodup).2 ?_
  intro a
  rw [mem_sortedDedupeNonempty, List.mem_filter, mem_slicesCompact]
  unfold slicesSort
  rw [List.mem_insertionSort]
  simp

/-- C1: writing a list of strings with SetImmutableIdentifierTraits succeeds, and
reading the flow back with ImmutableIdentifierTraits yields
sorted(dedupe(filter(L, nonempty))): a strictly ascending list holding exactly the
non-empty strings of L; for an empty L the read is empty. -/
theorem set_then_read_immutable_identifier_traits (flow : Flow) (L : List String) :
    (SetImmutableIdentifierTraits (some flow) L).2 = none
    ∧ (SetImmutableIdentifierTraits (some flow) L).1.isSome = true
    ∧ ImmutableIdentifierTraits (SetImmutableIdentifierTraits (some flow) L).1
        = sortedDedupeNonempty L
    ∧ (ImmutableIdentifierTraits (SetImmutableIdentifierTraits (some flow) L).1).Sorted
        (fun a b => a < b)
    ∧ (∀ s, s ∈ ImmutableIdentifierTraits (SetImmutableIdentifierTraits (some flow) L).1
        ↔ s ∈ L ∧ s ≠ "")
    ∧ (L = [] → ImmutableIdentifierTraits (SetImmutableIdentifierTraits (some flow) L).1 = []) := by
  have hread : ImmutableIdentifierTraits (SetImmutableIdentifierTraits (some flow) L).1
      = sortedDedupeNonempty L := by
    cases L with
    | nil =>
      have hget := GetBytes_DeleteBytes_self flow.InternalContext
        InternalContextKeyImmutableIdentifierTraits
        InternalContextKeyImmutableIdentifierTraits_ne_empty
      simp only [SetImmutableIdentifierTraits, List.length_nil, if_true, ImmutableIdentifierTraits,
        hget]
      rfl
    | cons a rest =>
      have hlen : ¬ (a :: rest).length = 0 := by simp
      simp only [SetImmutableIdentifierTraits, hlen, if_false]
      rw [read_stored_strings _ (slicesCompact (slicesSort (a :: rest)))]
      · exact stored_filter_eq_spec (a :: rest)
      · exact GetBytes_SetBytes_self _ _ _ InternalContextKeyImmutableIdentifierTraits_ne_empty
  refine ⟨?_, ?_, hread, ?_, ?_, ?_⟩
  · cases L with
    | nil =>
      simp only [SetImmutableIdentifierTraits, List.length_nil, if_true]
      exact DeleteBytes_ok _ _ InternalContextKeyImmutableIdentifierTraits_ne_empty
    | cons a rest =>
      have hlen : ¬ (a :: rest).length = 0 := by simp
      simp only [SetImmutableIdentifierTraits, hlen, if_false]
      exact SetBytes_ok _ _ _ InternalContextKeyImmutableIdentifierTraits_ne_empty
  · cases L with
    | nil => simp [SetImmutableIdentifierTraits]
    | cons a rest => simp [SetImmutableIdentifierTraits]
  · rw [hread]
    exact sorted_sortedDedupeNonempty L
  · intro s
    rw [hread]
    exact mem_sortedDedupeNonempty s L
  · intro hL
    rw [hread, hL]
    rfl

/-- C2: SetImmutableIdentifierTraits with empty items returns no error and leaves the
key immutable_identifier_traits absent from the context document; when the key was
absent before, the flow is left as it was. -/
theorem set_empty_deletes_key (flow : Flow) :
    (SetImmutableIdentifierTraits (some flow) []).2 = none
    ∧ ∃ flow', (SetImmutableIdentifierTraits (some flow) []).1 = some flow'
        ∧ GetBytes flow'.InternalContext InternalContextKeyImmutableIdentifierTraits = none
        ∧ (GetBytes flow.InternalContext InternalContextKeyImmutableIdentifierTraits = none
            → flow' = flow) := by
  refine ⟨?_, _, rfl, ?_, ?_⟩
  · simp only [SetImmutableIdentifierTraits, List.length_nil, if_true]
    exact DeleteBytes_ok _ _ InternalContextKeyImmutableIdentifierTraits_ne_empty
  · exact GetBytes_DeleteBytes_self _ _ InternalContextKeyImmutableIdentifierTraits_ne_empty
  · intro h
    show ({ flow with InternalContext := (DeleteBytes flow.InternalContext
      InternalContextKeyImmutableIdentifierTraits).1 } : Flow) = flow
    rw [DeleteBytes_absent _ _ h]

end settings

/-! ## The registration method allow-list -/

namespace hook

theorem dot_mem_PrefixInternalContextKey (ct : CredentialsType) (suffix : String) :
    '.' ∈ (PrefixInternalContextKey ct suffix).data := by
  simp [PrefixInternalContextKey, String.data_append]

theorem PrefixInternalContextKey_ne_empty (ct : CredentialsType) (suffix : String) :
    PrefixInternalContextKey ct suffix ≠ "" := by
  intro h
  have := dot_mem_PrefixInternalContextKey ct suffix
  rw [h] at this
  simp at this

theorem PrefixInternalContextKey_ne_allowedKey (ct : CredentialsType) (suffix : String) :
    PrefixInternalContextKey ct suffix ≠ internalContextAllowedMethodsKey := by
  intro h
  have := dot_mem_PrefixInternalContextKey ct suffix
  rw [h] at this
  revert this
  decide

theorem internalContextAllowedMethodsKey_ne_empty : internalContextAllowedMethodsKey ≠ "" := by
  decide

theorem allowedKey_not_mem_cleanupKeys (R : Registry) (ct : CredentialsType) :
    internalContextAllowedMethodsKey ∉ cleanupKeys R ct := by
  unfold cleanupKeys
  cases internalContextCleanupSuffixes R ct with
  | none => simp
  | some suffixes =>
    simp only [List.mem_map, not_exists, not_and]
    intro suffix _ h
    exact PrefixInternalContextKey_ne_allowedKey ct suffix h

theorem allowedKey_not_mem_prunedKeys (R : Registry) (allowed : List CredentialsType) :
    internalContextAllowedMethodsKey ∉ prunedKeys R allowed := by
  unfold prunedKeys
  simp only [List.mem_flatMap, not_exists, not_and]
  intro ct _
  exact allowedKey_not_mem_cleanupKeys R ct

theorem foldl_skip_group (group : UiNodeGroup) (nodes : List Node) (init : List Node) :
    nodes.foldl (fun filtered n => if n.Group = group then filtered else filtered ++ [n]) init
      = init ++ nodes.filter (fun n => decide (n.Group ∉ [group])) := by
  induction nodes generalizing init with
  | nil => simp
  | cons n rest ih =>
    by_cases hg : n.Group = group
    · simp [List.foldl_cons, hg, ih, List.filter_cons]
    · simp [List.foldl_cons, hg, ih, List.filter_cons]

theorem without_nil (regFlow : registration.Flow) : without regFlow [] [] = regFlow := by
  obtain ⟨id, ui, ctx⟩ := regFlow
  cases ui <;> cases ctx <;> simp [without]

theorem without_without (regFlow : registration.Flow) (g₁ g₂ : List UiNodeGroup)
    (k₁ k₂ : List String) :
    without (without regFlow g₁ k₁) g₂ k₂ = without regFlow (g₁ ++ g₂) (k₁ ++ k₂) := by
  obtain ⟨id, ui, ctx⟩ := regFlow
  have hn : ∀ nodes : List Node,
      (nodes.filter (fun n => decide (n.Group ∉ g₁))).filter (fun n => decide (n.Group ∉ g₂))
        = nodes.filter (fun n => decide (n.Group ∉ g₁ ++ g₂)) := by
    intro nodes
    rw [List.filter_filter]
    congr 1
    funext n
    by_cases h1 : n.Group ∈ g₁ <;> by_cases h2 : n.Group ∈ g₂ <;> simp [h1, h2]
  have hk : ∀ members : List (String × Value),
      (members.filter (fun kv => decide (kv.1 ∉ k₁))).filter (fun kv => decide (kv.1 ∉ k₂))
        = members.filter (fun kv => decide (kv.1 ∉ k₁ ++ k₂)) := by
    intro members
    rw [List.filter_filter]
    congr 1
    funext kv
    by_cases h1 : kv.1 ∈ k₁ <;> by_cases h2 : kv.1 ∈ k₂ <;> simp [h1, h2]
  cases ui <;> cases ctx <;>
    simp only [without, Option.map_some', Option.map_none', hn, hk]

theorem filterNodesByGroup_eq (regFlow : registration.Flow) (group : UiNodeGroup) :
    filterNodesByGroup regFlow group = without regFlow [group] [] := by
  obtain ⟨id, ui, ctx⟩ := regFlow
  cases ui with
  | none => cases ctx <;> simp [filterNodesByGroup, without]
  | some c =>
    have := foldl_skip_group group c.Nodes []
    rw [List.nil_append] at this
    cases ctx <;> simp [filterNodesByGroup, without, this]

theorem deleteSuffixes_eq (ct : CredentialsType) (suffixes : List String)
    (regFlow : registration.Flow) :
    deleteSuffixes ct suffixes regFlow
      = (without regFlow [] (suffixes.map (PrefixInternalContextKey ct)), none) := by
  induction suffixes generalizing regFlow with
  | nil => simp [deleteSuffixes, without_nil]
  | cons suffix rest ih =>
    have hne := PrefixInternalContextKey_ne_empty ct suffix
    have hstep : ({ regFlow with InternalContext :=
        (DeleteBytes regFlow.InternalContext (PrefixInternalContextKey ct suffix)).1 }
          : registration.Flow) = without regFlow [] [PrefixInternalContextKey ct suffix] := by
      obtain ⟨id, ui, ctx⟩ := regFlow
      cases ui <;> cases ctx <;> simp [without, DeleteBytes, hne]
    simp only [deleteSuffixes, DeleteBytes_ok _ _ hne, hstep, ih, without_without,
      List.nil_append, List.map_cons, List.singleton_append]

theorem removeFlowArtifacts_eq (R : Registry) (regFlow : registration.Flow)
    (ct : CredentialsType) :
    removeFlowArtifacts R regFlow ct
      = (without regFlow (groupsOf R ct) (cleanupKeys R ct), none) := by
  have hfilter : (if R.ToUiNodeGroup ct ≠ "" ∧ R.ToUiNodeGroup ct ≠ R.DefaultGroup
      then filterNodesByGroup regFlow (R.ToUiNodeGroup ct) else regFlow)
        = without regFlow (groupsOf R ct) [] := by
    unfold groupsOf
    split
    · exact filterNodesByGroup_eq _ _
    · exact (without_nil regFlow).symm
  unfold removeFlowArtifacts cleanupKeys
  simp only [hfilter]
  cases internalContextCleanupSuffixes R ct with
  | none => rfl
  | some suffixes =>
    simp only [deleteSuffixes_eq, without_without, List.append_nil, List.nil_append]

theorem pruneTypes_eq (R : Registry) (allowed types : List CredentialsType)
    (regFlow : registration.Flow) :
    pruneTypes R allowed types regFlow
      = (without regFlow ((disallowed allowed types).flatMap (groupsOf R))
          ((disallowed allowed types).flatMap (cleanupKeys R)), none) := by
  induction types generalizing regFlow with
  | nil => simp [pruneTypes, disallowed, without_nil]
  | cons ct rest ih =>
    by_cases hct : ct ∈ allowed
    · have hd : disallowed allowed (ct :: rest) = disallowed allowed rest := by
        simp [disallowed, List.filter_cons, hct]
      rw [pruneTypes, if_pos hct, ih, hd]
    · have hd : disallowed allowed (ct :: rest) = ct :: disallowed allowed rest := by
        simp [disallowed, List.filter_cons, hct]
      rw [pruneTypes, if_neg hct, removeFlowArtifacts_eq]
      simp only [ih, without_without, hd, List.flatMap_cons]

theorem PruneRegistrationFlow_eq (R : Registry) (regFlow : registration.Flow) :
    PruneRegistrationFlow R regFlow
      = if AllowedRegistrationMethods R regFlow = [] then (regFlow, none)
        else (without regFlow (prunedGroups R (AllowedRegistrationMethods R regFlow))
          (prunedKeys R (AllowedRegistrationMethods R regFlow)), none) := by
  unfold PruneRegistrationFlow prunedGroups prunedKeys
  simp only [List.length_eq_zero, pruneTypes_eq]

theorem without_idem (regFlow : registration.Flow) (g : List UiNodeGroup) (k : List String) :
    without (without regFlow g k) g k = without regFlow g k := by
  rw [without_without]
  have hg : (fun n : Node => decide (n.Group ∉ g ++ g)) = (fun n => decide (n.Group ∉ g)) := by
    funext n
    simp
  have hk : (fun kv : String × Value => decide (kv.1 ∉ k ++ k))
      = (fun kv => decide (kv.1 ∉ k)) := by
    funext kv
    simp
  simp only [without, hg, hk]

theorem nodesOf_without (regFlow : registration.Flow) (g : List UiNodeGroup) (k : List String) :
    nodesOf (without regFlow g k)
      = (nodesOf regFlow).filter (fun n => decide (n.Group ∉ g)) := by
  obtain ⟨id, ui, ctx⟩ := regFlow
  cases ui <;> simp [nodesOf, without]

theorem GetBytes_without (regFlow : registration.Flow) (g : List UiNodeGroup) (k : List String)
    (key : String) :
    GetBytes (without regFlow g k).InternalContext key
      = if key ∈ k then none else GetBytes regFlow.InternalContext key := by
  obtain ⟨id, ui, ctx⟩ := regFlow
  cases ctx with
  | none => simp [without, GetBytes]
  | some members =>
    have := lookup_filter_keys (fun x => decide (x ∉ k)) key members
    simp only [without, GetBytes, Option.map_some']
    rw [this]
    by_cases hk : key ∈ k <;> simp [hk]

theorem AllowedRegistrationMethods_congr (R : Registry) (a b : registration.Flow)
    (h : GetBytes a.InternalContext internalContextAllowedMethodsKey
      = GetBytes b.InternalContext internalContextAllowedMethodsKey) :
    AllowedRegistrationMethods R a = AllowedRegistrationMethods R b := by
  unfold AllowedRegistrationMethods
  rw [h]

theorem persistedNames_congr (a b : registration.Flow)
    (h : GetBytes a.InternalContext internalContextAllowedMethodsKey
      = GetBytes b.InternalContext internalContextAllowedMethodsKey) :
    persistedNames a = persistedNames b := by
  unfold persistedNames
  rw [h]

theorem GetBytes_allowedKey_pruned (R : Registry) (regFlow : registration.Flow)
    (g : List UiNodeGroup) (allowed : List CredentialsType) :
    GetBytes (without regFlow g (prunedKeys R allowed)).InternalContext
        internalContextAllowedMethodsKey
      = GetBytes regFlow.InternalContext internalContextAllowedMethodsKey := by
  rw [GetBytes_without, if_neg (allowedKey_not_mem_prunedKeys R allowed)]

theorem mem_mapInsert (m : List CredentialsType) (k x : CredentialsType) :
    x ∈ mapInsert m k ↔ x ∈ m ∨ x = k := by
  unfold mapInsert
  by_cases h : k ∈ m
  · rw [if_pos h]
    constructor
    · exact Or.inl
    · rintro (hx | hx)
      · exact hx
      · exact hx ▸ h
  · rw [if_neg h]
    simp

theorem ParseCredentialsType_eq_some (R : Registry) (s : String) (ct : CredentialsType) :
    ParseCredentialsType R s = some ct ↔ ct = s ∧ s ∈ R.AllCredentialTypes := by
  unfold ParseCredentialsType
  constructor
  · intro h
    have h1 : ct = s := by simpa using List.find?_some h
    exact ⟨h1, h1 ▸ List.mem_of_find?_eq_some h⟩
  · rintro ⟨rfl, hmem⟩
    generalize R.AllCredentialTypes = types at hmem
    induction types with
    | nil => simp at hmem
    | cons t rest ih =>
      by_cases ht : t = ct
      · simp [List.find?_cons, ht]
      · have : ct ∈ rest := by
          rcases List.mem_cons.1 hmem with e | e
          · exact absurd e.symm ht
          · exact e
        simp [List.find?_cons, ht, ih this]

theorem ParseCredentialsType_eq_none (R : Registry) (s : String) :
    ParseCredentialsType R s = none ↔ s ∉ R.AllCredentialTypes := by
  constructor
  · intro h hmem
    have := (ParseCredentialsType_eq_some R s s).2 ⟨rfl, hmem⟩
    rw [h] at this
    cases this
  · intro h
    cases hp : ParseCredentialsType R s with
    | none => rfl
    | some ct => exact absurd ((ParseCredentialsType_eq_some R s ct).1 hp).2 h

/-- Membership in the set read back from a list of persisted elements. -/
theorem mem_foldl_allowed (R : Registry) (items : List Item) (init : List CredentialsType)
    (ct : CredentialsType) :
    ct ∈ items.foldl
        (fun allowed v =>
          if v.asString = R.CredentialsTypeProfile then
            mapInsert allowed R.CredentialsTypeProfile
          else
            match ParseCredentialsType R v.asString with
            | none => allowed
            | some ct => mapInsert allowed ct)
        init
      ↔ ct ∈ init ∨ ∃ v ∈ items, ct = v.asString
          ∧ (ct = R.CredentialsTypeProfile ∨ ct ∈ R.AllCredentialTypes) := by
  induction items generalizing init with
  | nil => simp
  | cons v rest ih =>
    rw [List.foldl_cons, ih]
    by_cases hp : v.asString = R.CredentialsTypeProfile
    · rw [if_pos hp, mem_mapInsert]
      constructor
      · rintro ((h | h) | ⟨w, hw, h⟩)
        · exact Or.inl h
        · exact Or.inr ⟨v, List.mem_cons_self _ _, h.trans hp.symm, Or.inl h⟩
        · exact Or.inr ⟨w, List.mem_cons_of_mem _ hw, h⟩
      · rintro (h | ⟨w, hw, h⟩)
        · exact Or.inl (Or.inl h)
        · rcases List.mem_cons.1 hw with e | e
          · subst e
            exact Or.inl (Or.inr (h.1.trans hp))
          · exact Or.inr ⟨w, e, h⟩
    · rw [if_neg hp]
      cases hparse : ParseCredentialsType R v.asString with
      | none =>
        have hnot := (ParseCredentialsType_eq_none R v.asString).1 hparse
        constructor
        · rintro (h | ⟨w, hw, h⟩)
          · exact Or.inl h
          · exact Or.inr ⟨w, List.mem_cons_of_mem _ hw, h⟩
        · rintro (h | ⟨w, hw, h⟩)
          · exact Or.inl h
          · rcases List.mem_cons.1 hw with e | e
            · subst e
              rcases h.2 with h2 | h2
              · exact absurd (h.1.symm.trans h2) hp
              · exact absurd (h.1 ▸ h2) hnot
            · exact Or.inr ⟨w, e, h⟩
      | some t =>
        obtain ⟨ht, hmem⟩ := (ParseCredentialsType_eq_some R v.asString t).1 hparse
        simp only [mem_mapInsert]
        constructor
        · rintro ((h | h) | ⟨w, hw, h⟩)
          · exact Or.inl h
          · exact Or.inr ⟨v, List.mem_cons_self _ _, h.trans ht, Or.inr (h ▸ ht ▸ hmem)⟩
          · exact Or.inr ⟨w, List.mem_cons_of_mem _ hw, h⟩
        · rintro (h | ⟨w, hw, h⟩)
          · exact Or.inl (Or.inl h)
          · rcases List.mem_cons.1 hw with e | e
            · subst e
              exact Or.inl (Or.inr (h.1.trans ht.symm))
            · exact Or.inr ⟨w, e, h⟩

theorem mem_AllowedRegistrationMethods (R : Registry) (regFlow : registration.Flow)
    (ct : CredentialsType) :
    ct ∈ AllowedRegistrationMethods R regFlow
      ↔ ct ∈ persistedNames regFlow
        ∧ (ct = R.CredentialsTypeProfile ∨ ct ∈ R.AllCredentialTypes) := by
  unfold AllowedRegistrationMethods persistedNames
  cases GetBytes regFlow.InternalContext internalContextAllowedMethodsKey with
  | none => simp
  | some raw =>
    simp only [mem_foldl_allowed, List.not_mem_nil, false_or, List.mem_map]
    constructor
    · rintro ⟨v, hv, h1, h2⟩
      exact ⟨⟨v, hv, h1.symm⟩, h2⟩
    · rintro ⟨⟨v, hv, h1⟩, h2⟩
      exact ⟨v, hv, h1.symm, h2⟩

/-! ### Pruning -/

/-- C9: on a flow whose context document has no registration_allowed_methods key, or
has it with an empty list, PruneRegistrationFlow returns without error and leaves the
flow, its UI node sequence and its context document, unchanged. -/
theorem prune_without_allow_list_changes_nothing (R : Registry) (regFlow : registration.Flow)
    (h : GetBytes regFlow.InternalContext internalContextAllowedMethodsKey = none
      ∨ GetBytes regFlow.InternalContext internalContextAllowedMethodsKey
          = some (Value.list [])) :
    PruneRegistrationFlow R regFlow = (regFlow, none) := by
  have hallowed : AllowedRegistrationMethods R regFlow = [] := by
    unfold AllowedRegistrationMethods
    rcases h with h | h
    · rw [h]
    · rw [h]
      rfl
  rw [PruneRegistrationFlow_eq, if_pos hallowed]

theorem prune_without_allow_list_changes_nothing_witness :
    GetBytes testFlow.InternalContext internalContextAllowedMethodsKey = none
    ∧ PruneRegistrationFlow exampleRegistry testFlow = (testFlow, none) :=
  ⟨by decide, prune_without_allow_list_changes_nothing exampleRegistry testFlow (Or.inl (by decide))⟩

/-- C5: PruneRegistrationFlow never removes a UI node of the shared/default group: the
subsequence of default-group nodes is the same after the call as before it. -/
theorem prune_keeps_default_group_nodes (R : Registry) (regFlow : registration.Flow) :
    (nodesOf (PruneRegistrationFlow R regFlow).1).filter
        (fun n => decide (n.Group = R.DefaultGroup))
      = (nodesOf regFlow).filter (fun n => decide (n.Group = R.DefaultGroup)) := by
  rw [PruneRegistrationFlow_eq]
  split
  · rfl
  · rw [nodesOf_without, List.filter_filter]
    apply List.filter_congr
    intro n _
    by_cases hn : n.Group = R.DefaultGroup
    · have hnot : n.Group ∉ prunedGroups R (AllowedRegistrationMethods R regFlow) := by
        unfold prunedGroups
        simp only [List.mem_flatMap, not_exists, not_and]
        intro ct _ hmem
        unfold groupsOf at hmem
        split at hmem
        · rename_i hg
          rw [List.mem_singleton] at hmem
          exact hg.2 (hmem ▸ hn)
        · simp at hmem
      rw [hn] at hnot
      simp [hn, hnot]
    · simp [hn]

/-- C3: PruneRegistrationFlow is idempotent: after a first call that succeeds, a
second call succeeds as well and leaves the flow, UI node sequence and context
document, exactly as the first call left it. -/
theorem prune_idempotent (R : Registry) (regFlow : registration.Flow)
    (_hfirst : (PruneRegistrationFlow R regFlow).2 = none) :
    PruneRegistrationFlow R (PruneRegistrationFlow R regFlow).1
      = ((PruneRegistrationFlow R regFlow).1, none) := by
  by_cases hallowed : AllowedRegistrationMethods R regFlow = []
  · have h1 : PruneRegistrationFlow R regFlow = (regFlow, none) := by
      rw [PruneRegistrationFlow_eq, if_pos hallowed]
    rw [h1]
    exact h1
  · have h1 : PruneRegistrationFlow R regFlow
        = (without regFlow (prunedGroups R (AllowedRegistrationMethods R regFlow))
            (prunedKeys R (AllowedRegistrationMethods R regFlow)), none) := by
      rw [PruneRegistrationFlow_eq, if_neg hallowed]
    have h2 := AllowedRegistrationMethods_congr R _ _
      (GetBytes_allowedKey_pruned R regFlow
        (prunedGroups R (AllowedRegistrationMethods R regFlow))
        (AllowedRegistrationMethods R regFlow))
    rw [h1]
    simp only []
    rw [PruneRegistrationFlow_eq, h2, if_neg hallowed, without_idem]

theorem prune_idempotent_witness :
    (PruneRegistrationFlow exampleRegistry codeOnlyFlow).2 = none
    ∧ PruneRegistrationFlow exampleRegistry (PruneRegistrationFlow exampleRegistry codeOnlyFlow).1
        = ((PruneRegistrationFlow exampleRegistry codeOnlyFlow).1, none) :=
  ⟨by decide, prune_idempotent exampleRegistry codeOnlyFlow (by decide)⟩

theorem not_mem_allowed_of_not_named (R : Registry) (regFlow : registration.Flow)
    (ct : CredentialsType) (h : ct ∉ persistedNames regFlow) :
    ct ∉ AllowedRegistrationMethods R regFlow :=
  fun hmem => h ((mem_AllowedRegistrationMethods R regFlow ct).1 hmem).1

theorem mem_disallowed (allowed types : List CredentialsType) (ct : CredentialsType) :
    ct ∈ disallowed allowed types ↔ ct ∈ types ∧ ct ∉ allowed := by
  simp [disallowed, List.mem_filter]

/-- After pruning with a non-empty allow-set nothing of a disallowed known type is left. -/
theorem without_pruned_clean (R : Registry) (regFlow : registration.Flow)
    (allowed : List CredentialsType) (ct : CredentialsType)
    (hknown : ct ∈ R.AllCredentialTypes) (hnot : ct ∉ allowed) :
    (R.ToUiNodeGroup ct ≠ "" → R.ToUiNodeGroup ct ≠ R.DefaultGroup →
      ∀ n ∈ nodesOf (without regFlow (prunedGroups R allowed) (prunedKeys R allowed)),
        n.Group ≠ R.ToUiNodeGroup ct)
    ∧ ∀ k ∈ cleanupKeys R ct,
        GetBytes (without regFlow (prunedGroups R allowed) (prunedKeys R allowed)).InternalContext k
          = none := by
  have hdis : ct ∈ disallowed allowed R.AllCredentialTypes :=
    (mem_disallowed _ _ _).2 ⟨hknown, hnot⟩
  constructor
  · intro h1 h2 n hn hgroup
    rw [nodesOf_without, List.mem_filter] at hn
    have hmem : n.Group ∈ prunedGroups R allowed := by
      unfold prunedGroups
      refine List.mem_flatMap.2 ⟨ct, hdis, ?_⟩
      unfold groupsOf
      rw [if_pos ⟨h1, h2⟩, hgroup]
      exact List.mem_singleton.2 rfl
    simpa [hmem] using hn.2
  · intro k hk
    have hmem : k ∈ prunedKeys R allowed := List.mem_flatMap.2 ⟨ct, hdis, hk⟩
    rw [GetBytes_without, if_pos hmem]

/-- C6, as the code has it: when the persisted registration_allowed_methods list yields
a non-empty allow-set (one entry at least is the profile name or parses to a known
credential type), then after PruneRegistrationFlow has succeeded, for every known
credential type not named in the list no UI node remains whose group is that type's
mapped group (when that group is neither empty nor the shared/default group), and none
of that type's registered cleanup keys remains in the context document. -/
theorem prune_removes_disallowed_artifacts (R : Registry) (regFlow : registration.Flow)
    (ct : CredentialsType)
    (hallowed : AllowedRegistrationMethods R regFlow ≠ [])
    (_hok : (PruneRegistrationFlow R regFlow).2 = none)
    (hknown : ct ∈ R.AllCredentialTypes) (hnot : ct ∉ persistedNames regFlow) :
    (R.ToUiNodeGroup ct ≠ "" → R.ToUiNodeGroup ct ≠ R.DefaultGroup →
      ∀ n ∈ nodesOf (PruneRegistrationFlow R regFlow).1, n.Group ≠ R.ToUiNodeGroup ct)
    ∧ ∀ k ∈ cleanupKeys R ct,
        GetBytes (PruneRegistrationFlow R regFlow).1.InternalContext k = none := by
  rw [PruneRegistrationFlow_eq, if_neg hallowed]
  exact without_pruned_clean R regFlow _ ct hknown
    (not_mem_allowed_of_not_named R regFlow ct hnot)

theorem prune_removes_disallowed_artifacts_witness :
    AllowedRegistrationMethods exampleRegistry codeOnlyFlow ≠ []
    ∧ (PruneRegistrationFlow exampleRegistry codeOnlyFlow).2 = none
    ∧ "passkey" ∈ exampleRegistry.AllCredentialTypes
    ∧ "passkey" ∉ persistedNames codeOnlyFlow
    ∧ (exampleRegistry.ToUiNodeGroup "passkey" ≠ "" →
        exampleRegistry.ToUiNodeGroup "passkey" ≠ exampleRegistry.DefaultGroup →
        ∀ n ∈ nodesOf (PruneRegistrationFlow exampleRegistry codeOnlyFlow).1,
          n.Group ≠ exampleRegistry.ToUiNodeGroup "passkey")
    ∧ ∀ k ∈ cleanupKeys exampleRegistry "passkey",
        GetBytes (PruneRegistrationFlow exampleRegistry codeOnlyFlow).1.InternalContext k = none :=
  ⟨by decide, by decide, by decide, by decide,
    prune_removes_disallowed_artifacts exampleRegistry codeOnlyFlow "passkey"
      (by decide) (by decide) (by decide) (by decide)⟩

/-- C6 as stated fails: the persisted list `["bogus"]` is non-empty, yet no entry of it
is a credential type, the allow-set read back is empty and PruneRegistrationFlow
returns without touching the flow: the passkey node and the passkey session data stay,
although passkey is a known type that the list does not name. -/
theorem prune_keeps_everything_when_no_entry_parses :
    persistedNames unparsableListFlow = ["bogus"]
    ∧ (PruneRegistrationFlow exampleRegistry unparsableListFlow).2 = none
    ∧ "passkey" ∈ exampleRegistry.AllCredentialTypes
    ∧ "passkey" ∉ persistedNames unparsableListFlow
    ∧ exampleRegistry.ToUiNodeGroup "passkey" ≠ ""
    ∧ exampleRegistry.ToUiNodeGroup "passkey" ≠ exampleRegistry.DefaultGroup
    ∧ (∃ n ∈ nodesOf (PruneRegistrationFlow exampleRegistry unparsableListFlow).1,
        n.Group = exampleRegistry.ToUiNodeGroup "passkey")
    ∧ (∃ k ∈ cleanupKeys exampleRegistry "passkey",
        GetBytes (PruneRegistrationFlow exampleRegistry unparsableListFlow).1.InternalContext k
          ≠ none) := by
  decide

/-! ### Construction of the hook -/

theorem collectAllowed_unknown (R : Registry) (methods : List String)
    (allowed : List CredentialsType) (m : String) (hm : m ∈ methods) (hne : m ≠ "")
    (hprofile : m ≠ R.CredentialsTypeProfile) (hparse : ParseCredentialsType R m = none) :
    ∃ bad, bad ∈ methods ∧ ParseCredentialsType R bad = none
      ∧ collectAllowed R methods allowed
          = Except.error (Error.unknownRegistrationMethod bad) := by
  induction methods generalizing allowed with
  | nil => simp at hm
  | cons method rest ih =>
    by_cases h1 : method = ""
    · have hrest : m ∈ rest := by
        rcases List.mem_cons.1 hm with e | e
        · exact absurd (e.trans h1) hne
        · exact e
      obtain ⟨bad, hb, hp, he⟩ := ih allowed hrest
      exact ⟨bad, List.mem_cons_of_mem _ hb, hp, by rw [collectAllowed, if_pos h1, he]⟩
    · by_cases h2 : method = R.CredentialsTypeProfile
      · have hrest : m ∈ rest := by
          rcases List.mem_cons.1 hm with e | e
          · exact absurd (e.trans h2) hprofile
          · exact e
        obtain ⟨bad, hb, hp, he⟩ := ih (mapInsert allowed R.CredentialsTypeProfile) hrest
        exact ⟨bad, List.mem_cons_of_mem _ hb, hp,
          by rw [collectAllowed, if_neg h1, if_pos h2, he]⟩
      · cases h3 : ParseCredentialsType R method with
        | none =>
          exact ⟨method, List.mem_cons_self _ _, h3,
            by rw [collectAllowed, if_neg h1, if_neg h2, h3]⟩
        | some ct =>
          have hrest : m ∈ rest := by
            rcases List.mem_cons.1 hm with e | e
            · rw [e, h3] at hparse
              cases hparse
            · exact e
          obtain ⟨bad, hb, hp, he⟩ := ih (mapInsert allowed ct) hrest
          exact ⟨bad, List.mem_cons_of_mem _ hb, hp,
            by rw [collectAllowed, if_neg h1, if_neg h2, h3]; exact he⟩

/-- C7, as the code has it: when the configured allowed list contains a non-empty
string that is not the profile method's name and does not parse to a known credential
type, NewRegistrationMethodAllowListHook returns an error naming an unparsable entry of
the list, and no hook. -/
theorem unknown_method_fails_construction (R : Registry)
    (cfg : registrationMethodAllowListConfig) (m : String)
    (hm : m ∈ cfg.Allowed) (hne : m ≠ "") (hprofile : m ≠ R.CredentialsTypeProfile)
    (hparse : ParseCredentialsType R m = none) :
    ∃ bad, bad ∈ cfg.Allowed ∧ ParseCredentialsType R bad = none
      ∧ NewRegistrationMethodAllowListHook R (RawMessage.decodes cfg)
          = Except.error (Error.unknownRegistrationMethod bad) := by
  have hlen : ¬ cfg.Allowed.length = 0 := by
    intro h
    rw [List.length_eq_zero.1 h] at hm
    simp at hm
  obtain ⟨bad, hb, hp, he⟩ :=
    collectAllowed_unknown R cfg.Allowed [R.CredentialsTypeProfile] m hm hne hprofile hparse
  refine ⟨bad, hb, hp, ?_⟩
  simp only [NewRegistrationMethodAllowListHook, effectiveAllowed, if_neg hlen, he]

theorem unknown_method_fails_construction_witness :
    "nope" ∈ ["code", "nope"] ∧ "nope" ≠ "" ∧ "nope" ≠ exampleRegistry.CredentialsTypeProfile
    ∧ ParseCredentialsType exampleRegistry "nope" = none
    ∧ ∃ bad, bad ∈ ["code", "nope"] ∧ ParseCredentialsType exampleRegistry bad = none
      ∧ NewRegistrationMethodAllowListHook exampleRegistry
          (RawMessage.decodes { Allowed := ["code", "nope"] })
        = Except.error (Error.unknownRegistrationMethod bad) :=
  ⟨by decide, by decide, by decide, by decide,
    unknown_method_fails_construction exampleRegistry { Allowed := ["code", "nope"] } "nope"
      (by decide) (by decide) (by decide) (by decide)⟩

/-- C7 as stated fails: the empty string is not the profile method's name and does not
parse to a known credential type, yet a configuration listing it is accepted, the
empty entry being skipped: the constructor returns a hook allowing profile alone. -/
theorem empty_method_string_is_accepted :
    "" ∈ [""] ∧ "" ≠ exampleRegistry.CredentialsTypeProfile
    ∧ ParseCredentialsType exampleRegistry "" = none
    ∧ NewRegistrationMethodAllowListHook exampleRegistry (RawMessage.decodes { Allowed := [""] })
        = Except.ok { allowed := ["profile"] } :=
  ⟨by decide, by decide, by decide, rfl⟩

theorem nodup_mapInsert (m : List CredentialsType) (k : CredentialsType) (h : m.Nodup) :
    (mapInsert m k).Nodup := by
  unfold mapInsert
  by_cases hk : k ∈ m
  · rw [if_pos hk]
    exact h
  · rw [if_neg hk]
    exact List.nodup_append.2 ⟨h, List.nodup_singleton k, by
      intro a ha hb
      rw [List.mem_singleton] at hb
      exact hk (hb ▸ ha)⟩

theorem collectAllowed_ok (R : Registry) (methods : List String)
    (allowed res : List CredentialsType) (h : collectAllowed R methods allowed = Except.ok res) :
    (allowed.Nodup → res.Nodup)
    ∧ ∀ ct, ct ∈ res ↔ ct ∈ allowed ∨ ∃ m ∈ methods, m ≠ ""
        ∧ ((m = R.CredentialsTypeProfile ∧ ct = R.CredentialsTypeProfile)
          ∨ (m ≠ R.CredentialsTypeProfile ∧ ParseCredentialsType R m = some ct)) := by
  induction methods generalizing allowed with
  | nil =>
    simp only [collectAllowed, Except.ok.injEq] at h
    subst h
    simp
  | cons method rest ih =>
    by_cases h1 : method = ""
    · rw [collectAllowed, if_pos h1] at h
      obtain ⟨hnd, hmem⟩ := ih allowed h
      refine ⟨hnd, fun ct => ?_⟩
      rw [hmem ct]
      constructor
      · rintro (hc | ⟨m, hm, hrest⟩)
        · exact Or.inl hc
        · exact Or.inr ⟨m, List.mem_cons_of_mem _ hm, hrest⟩
      · rintro (hc | ⟨m, hm, hm0, hrest⟩)
        · exact Or.inl hc
        · rcases List.mem_cons.1 hm with e | e
          · exact absurd (e.trans h1) hm0
          · exact Or.inr ⟨m, e, hm0, hrest⟩
    · by_cases h2 : method = R.CredentialsTypeProfile
      · rw [collectAllowed, if_neg h1, if_pos h2] at h
        obtain ⟨hnd, hmem⟩ := ih _ h
        refine ⟨fun hn => hnd (nodup_mapInsert _ _ hn), fun ct => ?_⟩
        rw [hmem ct, mem_mapInsert]
        constructor
        · rintro ((hc | hc) | ⟨m, hm, hrest⟩)
          · exact Or.inl hc
          · exact Or.inr ⟨method, List.mem_cons_self _ _, h1, Or.inl ⟨h2, hc⟩⟩
          · exact Or.inr ⟨m, List.mem_cons_of_mem _ hm, hrest⟩
        · rintro (hc | ⟨m, hm, hm0, hrest⟩)
          · exact Or.inl (Or.inl hc)
          · rcases List.mem_cons.1 hm with e | e
            · subst e
              rcases hrest with ⟨_, hc⟩ | ⟨hc, _⟩
              · exact Or.inl (Or.inr hc)
              · exact absurd h2 hc
            · exact Or.inr ⟨m, e, hm0, hrest⟩
      · rw [collectAllowed, if_neg h1, if_neg h2] at h
        cases h3 : ParseCredentialsType R method with
        | none =>
          rw [h3] at h
          cases h
        | some t =>
          rw [h3] at h
          obtain ⟨hnd, hmem⟩ := ih _ h
          refine ⟨fun hn => hnd (nodup_mapInsert _ _ hn), fun ct => ?_⟩
          rw [hmem ct, mem_mapInsert]
          constructor
          · rintro ((hc | hc) | ⟨m, hm, hrest⟩)
            · exact Or.inl hc
            · exact Or.inr ⟨method, List.mem_cons_self _ _, h1, Or.inr ⟨h2, hc ▸ h3⟩⟩
            · exact Or.inr ⟨m, List.mem_cons_of_mem _ hm, hrest⟩
          · rintro (hc | ⟨m, hm, hm0, hrest⟩)
            · exact Or.inl (Or.inl hc)
            · rcases List.mem_cons.1 hm with e | e
              · subst e
                rcases hrest with ⟨hc, _⟩ | ⟨_, hc⟩
                · exact absurd hc h2
                · rw [h3] at hc
                  exact Or.inl (Or.inr (Option.some.inj hc).symm)
              · exact Or.inr ⟨m, e, hm0, hrest⟩

theorem NewRegistrationMethodAllowListHook_ok (R : Registry) (raw : RawMessage)
    (h : RegistrationMethodAllowListHook) (configured : List String)
    (hraw : (raw = RawMessage.empty ∧ configured = [])
      ∨ raw = RawMessage.decodes { Allowed := configured })
    (hNew : NewRegistrationMethodAllowListHook R raw = Except.ok h) :
    collectAllowed R (if configured = [] then [R.CredentialsTypeCodeAuth] else configured)
      [R.CredentialsTypeProfile] = Except.ok h.allowed := by
  have hcfg : NewRegistrationMethodAllowListHook R raw
      = match collectAllowed R (effectiveAllowed R { Allowed := configured })
          [R.CredentialsTypeProfile] with
        | Except.error err => Except.error err
        | Except.ok allowed => Except.ok { allowed := allowed } := by
    rcases hraw with ⟨h1, h2⟩ | h1
    · rw [h1, h2]
      rfl
    · rw [h1]
      rfl
  rw [hcfg] at hNew
  have heff : effectiveAllowed R { Allowed := configured }
      = if configured = [] then [R.CredentialsTypeCodeAuth] else configured := by
    simp only [effectiveAllowed, List.length_eq_zero]
  rw [heff] at hNew
  cases hc : collectAllowed R (if configured = [] then [R.CredentialsTypeCodeAuth]
      else configured) [R.CredentialsTypeProfile] with
  | error err =>
    rw [hc] at hNew
    cases hNew
  | ok allowed =>
    rw [hc] at hNew
    simp only [Except.ok.injEq] at hNew
    rw [← hNew]

theorem profile_mem_of_New (R : Registry) (raw : RawMessage)
    (h : RegistrationMethodAllowListHook)
    (hNew : NewRegistrationMethodAllowListHook R raw = Except.ok h) :
    R.CredentialsTypeProfile ∈ h.allowed := by
  have key : ∀ configured, ((raw = RawMessage.empty ∧ configured = [])
      ∨ raw = RawMessage.decodes { Allowed := configured }) →
      R.CredentialsTypeProfile ∈ h.allowed := by
    intro configured hraw
    have hc := NewRegistrationMethodAllowListHook_ok R raw h configured hraw hNew
    exact ((collectAllowed_ok R _ _ _ hc).2 _).2 (Or.inl (List.mem_singleton.2 rfl))
  cases raw with
  | empty => exact key [] (Or.inl ⟨rfl, rfl⟩)
  | malformed => cases hNew
  | decodes cfg => exact key cfg.Allowed (Or.inr rfl)

/-- C8: when NewRegistrationMethodAllowListHook succeeds, the hook's allow-set holds
exactly the profile type and the credential types parsed from the configured allowed
list, an empty or absent list being replaced by the code method alone, and holds each
once; an empty configuration yields exactly code and profile.  The registry is taken
to name no credential type by the empty string. -/
theorem hook_allow_set_is_profile_and_configured (R : Registry) (raw : RawMessage)
    (h : RegistrationMethodAllowListHook) (configured : List String)
    (hnames : "" ∉ R.AllCredentialTypes) (hcode : R.CredentialsTypeCodeAuth ≠ "")
    (hraw : (raw = RawMessage.empty ∧ configured = [])
      ∨ raw = RawMessage.decodes { Allowed := configured })
    (hNew : NewRegistrationMethodAllowListHook R raw = Except.ok h) :
    h.allowed.Nodup
    ∧ (∀ ct, ct ∈ h.allowed ↔ ct = R.CredentialsTypeProfile
        ∨ ∃ m ∈ (if configured = [] then [R.CredentialsTypeCodeAuth] else configured),
            ParseCredentialsType R m = some ct)
    ∧ (configured = [] →
        ∀ ct, ct ∈ h.allowed ↔ ct = R.CredentialsTypeCodeAuth ∨ ct = R.CredentialsTypeProfile) := by
  have hc := NewRegistrationMethodAllowListHook_ok R raw h configured hraw hNew
  obtain ⟨hnd, hmem⟩ := collectAllowed_ok R _ _ _ hc
  refine ⟨hnd (List.nodup_singleton _), ?_, ?_⟩
  · intro ct
    rw [hmem ct, List.mem_singleton]
    constructor
    · rintro (hp | ⟨m, hm, _, ⟨_, hp⟩ | ⟨_, hp⟩⟩)
      · exact Or.inl hp
      · exact Or.inl hp
      · exact Or.inr ⟨m, hm, hp⟩
    · rintro (hp | ⟨m, hm, hp⟩)
      · exact Or.inl hp
      · obtain ⟨hct, hknown⟩ := (ParseCredentialsType_eq_some R m ct).1 hp
        have hm0 : m ≠ "" := fun e => hnames (e ▸ hknown)
        by_cases hprof : m = R.CredentialsTypeProfile
        · exact Or.inl (hct.trans hprof)
        · exact Or.inr ⟨m, hm, hm0, Or.inr ⟨hprof, hp⟩⟩
  · intro hempty ct
    rw [if_pos hempty] at hc hmem
    rw [hmem ct, List.mem_singleton]
    have hstep : ¬ R.CredentialsTypeCodeAuth = R.CredentialsTypeProfile →
        ParseCredentialsType R R.CredentialsTypeCodeAuth = some R.CredentialsTypeCodeAuth := by
      intro hprof
      rw [collectAllowed, if_neg hcode, if_neg hprof] at hc
      cases hp : ParseCredentialsType R R.CredentialsTypeCodeAuth with
      | none =>
        rw [hp] at hc
        cases hc
      | some t => rw [((ParseCredentialsType_eq_some R _ t).1 hp).1]
    constructor
    · rintro (hp | ⟨m, hm, _, ⟨_, hp⟩ | ⟨_, hp⟩⟩)
      · exact Or.inr hp
      · exact Or.inr hp
      · rw [List.mem_singleton] at hm
        rw [hm] at hp
        exact Or.inl ((ParseCredentialsType_eq_some R _ ct).1 hp).1
    · rintro (hp | hp)
      · by_cases hprof : R.CredentialsTypeCodeAuth = R.CredentialsTypeProfile
        · exact Or.inl (hp.trans hprof)
        · exact Or.inr ⟨R.CredentialsTypeCodeAuth, List.mem_singleton.2 rfl, hcode,
            Or.inr ⟨hprof, hp ▸ hstep hprof⟩⟩
      · exact Or.inl hp

theorem hook_allow_set_is_profile_and_configured_witness :
    "" ∉ exampleRegistry.AllCredentialTypes ∧ exampleRegistry.CredentialsTypeCodeAuth ≠ ""
    ∧ NewRegistrationMethodAllowListHook exampleRegistry RawMessage.empty
        = Except.ok { allowed := ["profile", "code"] }
    ∧ (["profile", "code"] : List CredentialsType).Nodup
    ∧ (∀ ct, ct ∈ (["profile", "code"] : List CredentialsType)
        ↔ ct = exampleRegistry.CredentialsTypeProfile
          ∨ ∃ m ∈ (if ([] : List String) = [] then [exampleRegistry.CredentialsTypeCodeAuth]
              else []), ParseCredentialsType exampleRegistry m = some ct)
    ∧ (([] : List String) = [] →
        ∀ ct, ct ∈ (["profile", "code"] : List CredentialsType)
          ↔ ct = exampleRegistry.CredentialsTypeCodeAuth
            ∨ ct = exampleRegistry.CredentialsTypeProfile) :=
  ⟨by decide, by decide, rfl,
    hook_allow_set_is_profile_and_configured exampleRegistry RawMessage.empty
      { allowed := ["profile", "code"] } [] (by decide) (by decide) (Or.inl ⟨rfl, rfl⟩) rfl⟩

/-! ### The pre-hook -/

theorem foldl_append_singleton (l init : List CredentialsType) :
    l.foldl (fun methods method => methods ++ [method]) init = init ++ l := by
  induction l generalizing init with
  | nil => simp
  | cons a rest ih => simp [List.foldl_cons, ih]

theorem setAllowedRegistrationMethods_eq (regFlow : registration.Flow)
    (allowed : List CredentialsType) :
    setAllowedRegistrationMethods regFlow allowed
      = ({ regFlow with InternalContext :=
            (SetBytes regFlow.InternalContext internalContextAllowedMethodsKey
              (Value.list (allowed.map Item.str))).1 }, none) := by
  unfold setAllowedRegistrationMethods
  simp only [foldl_append_singleton, List.nil_append,
    SetBytes_ok _ _ _ internalContextAllowedMethodsKey_ne_empty]

theorem persistedNames_setAllowed (regFlow : registration.Flow)
    (allowed : List CredentialsType) :
    persistedNames (setAllowedRegistrationMethods regFlow allowed).1 = allowed := by
  rw [setAllowedRegistrationMethods_eq]
  unfold persistedNames
  simp only []
  rw [GetBytes_SetBytes_self _ _ _ internalContextAllowedMethodsKey_ne_empty]
  simp only [Value.Array, List.map_map]
  have hid : (Item.asString ∘ Item.str) = id := by
    funext x
    rfl
  rw [hid, List.map_id]

/-- What a successful run of the pre-hook leaves behind, for a hook whose map is ranged
over in any order. -/
theorem pre_hook_facts (R : Registry) (raw : RawMessage)
    (h ranged : RegistrationMethodAllowListHook) (regFlow : registration.Flow)
    (hNew : NewRegistrationMethodAllowListHook R raw = Except.ok h)
    (hrange : ranged.allowed.Perm h.allowed) :
    (ExecuteRegistrationPreHook R ranged regFlow).2 = none
    ∧ persistedNames (ExecuteRegistrationPreHook R ranged regFlow).1 = ranged.allowed
    ∧ R.CredentialsTypeProfile
        ∈ AllowedRegistrationMethods R (ExecuteRegistrationPreHook R ranged regFlow).1 := by
  have hprofile : R.CredentialsTypeProfile ∈ ranged.allowed :=
    hrange.mem_iff.2 (profile_mem_of_New R raw h hNew)
  have hnames := persistedNames_setAllowed regFlow ranged.allowed
  have hexec : ExecuteRegistrationPreHook R ranged regFlow
      = PruneRegistrationFlow R (setAllowedRegistrationMethods regFlow ranged.allowed).1 := by
    unfold ExecuteRegistrationPreHook
    rw [setAllowedRegistrationMethods_eq]
  have hmem : R.CredentialsTypeProfile
      ∈ AllowedRegistrationMethods R (setAllowedRegistrationMethods regFlow ranged.allowed).1 :=
    (mem_AllowedRegistrationMethods R _ _).2 ⟨by rw [hnames]; exact hprofile, Or.inl rfl⟩
  have hne : AllowedRegistrationMethods R
      (setAllowedRegistrationMethods regFlow ranged.allowed).1 ≠ [] :=
    List.ne_nil_of_mem hmem
  rw [hexec, PruneRegistrationFlow_eq, if_neg hne]
  have hget := GetBytes_allowedKey_pruned R
    (setAllowedRegistrationMethods regFlow ranged.allowed).1
    (prunedGroups R (AllowedRegistrationMethods R
      (setAllowedRegistrationMethods regFlow ranged.allowed).1))
    (AllowedRegistrationMethods R (setAllowedRegistrationMethods regFlow ranged.allowed).1)
  refine ⟨rfl, ?_, ?_⟩
  · rw [persistedNames_congr _ _ hget]
    exact hnames
  · rw [AllowedRegistrationMethods_congr R _ _ hget]
    exact hmem

/-- C4: for every configuration for which NewRegistrationMethodAllowListHook succeeds
and every registration flow on which ExecuteRegistrationPreHook then succeeds, in
whatever order the hook's map is ranged over, the allow-set read back by
AllowedRegistrationMethods contains the profile credential type. -/
theorem pre_hook_persists_profile (R : Registry) (raw : RawMessage)
    (h ranged : RegistrationMethodAllowListHook) (regFlow : registration.Flow)
    (hNew : NewRegistrationMethodAllowListHook R raw = Except.ok h)
    (hrange : ranged.allowed.Perm h.allowed)
    (_hok : (ExecuteRegistrationPreHook R ranged regFlow).2 = none) :
    R.CredentialsTypeProfile
      ∈ AllowedRegistrationMethods R (ExecuteRegistrationPreHook R ranged regFlow).1 :=
  (pre_hook_facts R raw h ranged regFlow hNew hrange).2.2

theorem pre_hook_persists_profile_witness :
    NewRegistrationMethodAllowListHook exampleRegistry
        (RawMessage.decodes { Allowed := ["code"] })
      = Except.ok { allowed := ["profile", "code"] }
    ∧ (["code", "profile"] : List CredentialsType).Perm ["profile", "code"]
    ∧ (ExecuteRegistrationPreHook exampleRegistry { allowed := ["code", "profile"] } testFlow).2
        = none
    ∧ exampleRegistry.CredentialsTypeProfile
        ∈ AllowedRegistrationMethods exampleRegistry
            (ExecuteRegistrationPreHook exampleRegistry
              { allowed := ["code", "profile"] } testFlow).1 :=
  ⟨rfl, by decide, by decide,
    pre_hook_persists_profile exampleRegistry (RawMessage.decodes { Allowed := ["code"] })
      { allowed := ["profile", "code"] } { allowed := ["code", "profile"] } testFlow
      rfl (by decide) (by decide)⟩

/-- C10: after ExecuteRegistrationPreHook has succeeded, whatever UI nodes are appended
to the flow afterwards, PruneRegistrationFlow invoked again succeeds and removes every
appended node whose group is the mapped group of a known credential type outside the
hook's allow-set: the final UI holds no node, appended or not, of such a group.  The
table of credential types is taken to give every known type other than profile a group
of its own, neither empty nor the shared group. -/
theorem reprune_removes_rehydrated_nodes (R : Registry) (raw : RawMessage)
    (h ranged : RegistrationMethodAllowListHook) (regFlow hydrated : registration.Flow)
    (extra : List Node)
    (hgroups : ∀ ct ∈ R.AllCredentialTypes, ct ≠ R.CredentialsTypeProfile →
      R.ToUiNodeGroup ct ≠ "" ∧ R.ToUiNodeGroup ct ≠ R.DefaultGroup)
    (hNew : NewRegistrationMethodAllowListHook R raw = Except.ok h)
    (hrange : ranged.allowed.Perm h.allowed)
    (_hok : (ExecuteRegistrationPreHook R ranged regFlow).2 = none)
    (happend : appendNodes (ExecuteRegistrationPreHook R ranged regFlow).1 extra = some hydrated) :
    nodesOf hydrated = nodesOf (ExecuteRegistrationPreHook R ranged regFlow).1 ++ extra
    ∧ (PruneRegistrationFlow R hydrated).2 = none
    ∧ (∀ ct ∈ R.AllCredentialTypes, ct ∉ h.allowed →
        ∀ n ∈ nodesOf (PruneRegistrationFlow R hydrated).1, n.Group ≠ R.ToUiNodeGroup ct)
    ∧ ∀ n ∈ extra, (∃ ct ∈ R.AllCredentialTypes, ct ∉ h.allowed ∧ n.Group = R.ToUiNodeGroup ct) →
        n ∉ nodesOf (PruneRegistrationFlow R hydrated).1 := by
  obtain ⟨_, hnames, hprofile⟩ := pre_hook_facts R raw h ranged regFlow hNew hrange
  generalize (ExecuteRegistrationPreHook R ranged regFlow).1 = after at happend hnames hprofile
  have hctx : hydrated.InternalContext = after.InternalContext
      ∧ nodesOf hydrated = nodesOf after ++ extra := by
    unfold appendNodes at happend
    cases hui : after.UI with
    | none =>
      rw [hui] at happend
      cases happend
    | some ui =>
      rw [hui] at happend
      simp only [Option.some.injEq] at happend
      subst happend
      exact ⟨rfl, by simp [nodesOf, hui]⟩
  have hget : GetBytes hydrated.InternalContext internalContextAllowedMethodsKey
      = GetBytes after.InternalContext internalContextAllowedMethodsKey := by
    rw [hctx.1]
  have hne : AllowedRegistrationMethods R hydrated ≠ [] := by
    rw [AllowedRegistrationMethods_congr R _ _ hget]
    exact List.ne_nil_of_mem hprofile
  have hclean : ∀ ct ∈ R.AllCredentialTypes, ct ∉ h.allowed →
      ∀ n ∈ nodesOf (PruneRegistrationFlow R hydrated).1, n.Group ≠ R.ToUiNodeGroup ct := by
    intro ct hknown hnot
    have hown := hgroups ct hknown
      (fun e => hnot (e ▸ profile_mem_of_New R raw h hNew))
    rw [PruneRegistrationFlow_eq, if_neg hne]
    refine (without_pruned_clean R hydrated _ ct hknown ?_).1 hown.1 hown.2
    apply not_mem_allowed_of_not_named
    rw [persistedNames_congr _ _ hget, hnames]
    exact fun hmem => hnot (hrange.mem_iff.1 hmem)
  refine ⟨hctx.2, ?_, hclean, ?_⟩
  · rw [PruneRegistrationFlow_eq, if_neg hne]
  · rintro n _ ⟨ct, hknown, hnot, hgroup⟩ hmem
    exact hclean ct hknown hnot n hmem hgroup

theorem reprune_removes_rehydrated_nodes_witness :
    (∀ ct ∈ exampleRegistry.AllCredentialTypes, ct ≠ exampleRegistry.CredentialsTypeProfile →
      exampleRegistry.ToUiNodeGroup ct ≠ ""
        ∧ exampleRegistry.ToUiNodeGroup ct ≠ exampleRegistry.DefaultGroup)
    ∧ NewRegistrationMethodAllowListHook exampleRegistry
        (RawMessage.decodes { Allowed := ["code"] })
      = Except.ok { allowed := ["profile", "code"] }
    ∧ (["code", "profile"] : List CredentialsType).Perm ["profile", "code"]
    ∧ (ExecuteRegistrationPreHook exampleRegistry { allowed := ["code", "profile"] } testFlow).2
        = none
    ∧ appendNodes
        (ExecuteRegistrationPreHook exampleRegistry { allowed := ["code", "profile"] } testFlow).1
        rehydratedNodes = some rehydratedFlow
    ∧ nodesOf (PruneRegistrationFlow exampleRegistry rehydratedFlow).1
        = [{ Name := "method", Group := "code", Kind := "hidden", Value := "code" }]
    ∧ ∀ ct ∈ exampleRegistry.AllCredentialTypes,
        ct ∉ (["profile", "code"] : List CredentialsType) →
        ∀ n ∈ nodesOf (PruneRegistrationFlow exampleRegistry rehydratedFlow).1,
          n.Group ≠ exampleRegistry.ToUiNodeGroup ct :=
  ⟨by decide, rfl, by decide, by decide, by decide, by decide,
    (reprune_removes_rehydrated_nodes exampleRegistry
      (RawMessage.decodes { Allowed := ["code"] })
      { allowed := ["profile", "code"] } { allowed := ["code", "profile"] } testFlow
      rehydratedFlow rehydratedNodes (by decide) rfl (by decide) (by decide)
      (by decide)).2.2.1⟩

/-! ### Reading the persisted allow-set -/

theorem nodup_foldl_allowed (R : Registry) (items : List Item) (init : List CredentialsType)
    (h : init.Nodup) :
    (items.foldl
        (fun allowed v =>
          if v.asString = R.CredentialsTypeProfile then
            mapInsert allowed R.CredentialsTypeProfile
          else
            match ParseCredentialsType R v.asString with
            | none => allowed
            | some ct => mapInsert allowed ct)
        init).Nodup := by
  induction items generalizing init with
  | nil => exact h
  | cons v rest ih =>
    rw [List.foldl_cons]
    apply ih
    by_cases hp : v.asString = R.CredentialsTypeProfile
    · rw [if_pos hp]
      exact nodup_mapInsert _ _ h
    · rw [if_neg hp]
      cases ParseCredentialsType R v.asString with
      | none => exact h
      | some t => exact nodup_mapInsert _ _ h

theorem nodup_AllowedRegistrationMethods (R : Registry) (regFlow : registration.Flow) :
    (AllowedRegistrationMethods R regFlow).Nodup := by
  unfold AllowedRegistrationMethods
  cases GetBytes regFlow.InternalContext internalContextAllowedMethodsKey with
  | none => exact List.nodup_nil
  | some raw => exact nodup_foldl_allowed R raw.Array [] List.nodup_nil

theorem known_or_profile_of_New (R : Registry) (raw : RawMessage)
    (h : RegistrationMethodAllowListHook)
    (hNew : NewRegistrationMethodAllowListHook R raw = Except.ok h) (ct : CredentialsType)
    (hct : ct ∈ h.allowed) :
    ct = R.CredentialsTypeProfile ∨ ct ∈ R.AllCredentialTypes := by
  have key : ∀ configured, ((raw = RawMessage.empty ∧ configured = [])
      ∨ raw = RawMessage.decodes { Allowed := configured }) →
      ct = R.CredentialsTypeProfile ∨ ct ∈ R.AllCredentialTypes := by
    intro configured hraw
    have hc := NewRegistrationMethodAllowListHook_ok R raw h configured hraw hNew
    rcases ((collectAllowed_ok R _ _ _ hc).2 ct).1 hct with hp | ⟨m, _, _, ⟨_, hp⟩ | ⟨_, hp⟩⟩
    · exact Or.inl (List.mem_singleton.1 hp)
    · exact Or.inl hp
    · obtain ⟨he, hknown⟩ := (ParseCredentialsType_eq_some R m ct).1 hp
      exact Or.inr (he ▸ hknown)
  cases raw with
  | empty => exact key [] (Or.inl ⟨rfl, rfl⟩)
  | malformed => cases hNew
  | decodes cfg => exact key cfg.Allowed (Or.inr rfl)

/-- C11: for every hook built by NewRegistrationMethodAllowListHook and every
registration flow, whatever was persisted before and in whatever order the hook's map
is ranged over, after ExecuteRegistrationPreHook has succeeded
AllowedRegistrationMethods reads back exactly the hook's allow-set: a credential type is
in the set read back if and only if it is in the hook's map, and it is there once. -/
theorem pre_hook_persists_exactly_the_allow_set (R : Registry) (raw : RawMessage)
    (h ranged : RegistrationMethodAllowListHook) (regFlow : registration.Flow)
    (hNew : NewRegistrationMethodAllowListHook R raw = Except.ok h)
    (hrange : ranged.allowed.Perm h.allowed)
    (_hok : (ExecuteRegistrationPreHook R ranged regFlow).2 = none) :
    (∀ ct, ct ∈ AllowedRegistrationMethods R (ExecuteRegistrationPreHook R ranged regFlow).1
        ↔ ct ∈ h.allowed)
    ∧ (AllowedRegistrationMethods R (ExecuteRegistrationPreHook R ranged regFlow).1).Nodup := by
  obtain ⟨_, hnames, _⟩ := pre_hook_facts R raw h ranged regFlow hNew hrange
  refine ⟨fun ct => ?_, nodup_AllowedRegistrationMethods R _⟩
  rw [mem_AllowedRegistrationMethods, hnames, hrange.mem_iff]
  constructor
  · exact fun hmem => hmem.1
  · exact fun hmem => ⟨hmem, known_or_profile_of_New R raw h hNew ct hmem⟩

theorem pre_hook_persists_exactly_the_allow_set_witness :
    NewRegistrationMethodAllowListHook exampleRegistry
        (RawMessage.decodes { Allowed := ["code"] })
      = Except.ok { allowed := ["profile", "code"] }
    ∧ (["code", "profile"] : List CredentialsType).Perm ["profile", "code"]
    ∧ (ExecuteRegistrationPreHook exampleRegistry { allowed := ["code", "profile"] }
        codeOnlyFlow).2 = none
    ∧ "passkey" ∉ (["profile", "code"] : List CredentialsType)
    ∧ (∀ ct, ct ∈ AllowedRegistrationMethods exampleRegistry
          (ExecuteRegistrationPreHook exampleRegistry { allowed := ["code", "profile"] }
            codeOnlyFlow).1
        ↔ ct ∈ (["profile", "code"] : List CredentialsType))
    ∧ (AllowedRegistrationMethods exampleRegistry
        (ExecuteRegistrationPreHook exampleRegistry { allowed := ["code", "profile"] }
          codeOnlyFlow).1).Nodup :=
  ⟨rfl, by decide, by decide, by decide,
    pre_hook_persists_exactly_the_allow_set exampleRegistry
      (RawMessage.decodes { Allowed := ["code"] })
      { allowed := ["profile", "code"] } { allowed := ["code", "profile"] } codeOnlyFlow
      rfl (by decide) (by decide)⟩

/-- C16: when the context document holds an array under registration_allowed_methods,
AllowedRegistrationMethods returns exactly the credential types obtained from the string
forms of the array's elements: a type is in the result, once, if and only if some
element's string form is the profile name and the type is profile, or parses to that
type; elements that do not parse add nothing and raise no error. -/
theorem allowed_methods_are_the_parsed_elements (R : Registry) (regFlow : registration.Flow)
    (items : List Item)
    (h : GetBytes regFlow.InternalContext internalContextAllowedMethodsKey
      = some (Value.list items)) :
    (AllowedRegistrationMethods R regFlow).Nodup
    ∧ ∀ ct, ct ∈ AllowedRegistrationMethods R regFlow
        ↔ ∃ v ∈ items, (v.asString = R.CredentialsTypeProfile ∧ ct = R.CredentialsTypeProfile)
            ∨ ParseCredentialsType R v.asString = some ct := by
  refine ⟨nodup_AllowedRegistrationMethods R regFlow, fun ct => ?_⟩
  rw [mem_AllowedRegistrationMethods]
  unfold persistedNames
  rw [h]
  simp only [Value.Array, List.mem_map]
  constructor
  · rintro ⟨⟨v, hv, he⟩, hp | hk⟩
    · exact ⟨v, hv, Or.inl ⟨he.trans hp, hp⟩⟩
    · exact ⟨v, hv, Or.inr ((ParseCredentialsType_eq_some R _ _).2 ⟨he.symm, he ▸ hk⟩)⟩
  · rintro ⟨v, hv, ⟨he, hp⟩ | hparse⟩
    · exact ⟨⟨v, hv, he.trans hp.symm⟩, Or.inl hp⟩
    · obtain ⟨he, hk⟩ := (ParseCredentialsType_eq_some R _ _).1 hparse
      exact ⟨⟨v, hv, he.symm⟩, Or.inr (he ▸ hk)⟩

theorem allowed_methods_are_the_parsed_elements_witness :
    GetBytes unparsableListFlow.InternalContext internalContextAllowedMethodsKey
      = some (Value.list [Item.str "bogus"])
    ∧ (AllowedRegistrationMethods exampleRegistry unparsableListFlow).Nodup
    ∧ ∀ ct, ct ∈ AllowedRegistrationMethods exampleRegistry unparsableListFlow
        ↔ ∃ v ∈ [Item.str "bogus"],
            (v.asString = exampleRegistry.CredentialsTypeProfile
              ∧ ct = exampleRegistry.CredentialsTypeProfile)
            ∨ ParseCredentialsType exampleRegistry v.asString = some ct :=
  ⟨by decide,
    allowed_methods_are_the_parsed_elements exampleRegistry unparsableListFlow
      [Item.str "bogus"] (by decide)⟩

/-- C18 on the code: on a nil registration flow AllowedRegistrationMethods and
PruneRegistrationFlow do not return; both dereference the nil pointer. -/
theorem nil_registration_flow_is_dereferenced (R : Registry) :
    AllowedRegistrationMethodsOfPointer R none = none
    ∧ PruneRegistrationFlowOfPointer R none = none :=
  ⟨rfl, rfl⟩

/-! ### Filtering and the frame of pruning -/

/-- C17: on a flow with a UI container filterNodesByGroup leaves everything as it was
but the node sequence, which becomes the original sequence without the nodes of the
group, the others in their original order; on a flow without UI container, and on an
empty node sequence, it changes nothing. -/
theorem filterNodesByGroup_removes_exactly_the_group (regFlow : registration.Flow)
    (group : UiNodeGroup) :
    (∀ ui, regFlow.UI = some ui →
      filterNodesByGroup regFlow group
        = { regFlow with
            UI := some { ui with Nodes := ui.Nodes.filter (fun n => decide (n.Group ≠ group)) } })
    ∧ nodesOf (filterNodesByGroup regFlow group)
        = (nodesOf regFlow).filter (fun n => decide (n.Group ≠ group))
    ∧ (nodesOf (filterNodesByGroup regFlow group)).Sublist (nodesOf regFlow)
    ∧ (∀ n, n ∈ nodesOf (filterNodesByGroup regFlow group)
        ↔ n ∈ nodesOf regFlow ∧ n.Group ≠ group)
    ∧ (regFlow.UI = none → filterNodesByGroup regFlow group = regFlow)
    ∧ (nodesOf regFlow = [] → filterNodesByGroup regFlow group = regFlow) := by
  have hpred : (fun n : Node => decide (n.Group ∉ [group]))
      = (fun n : Node => decide (n.Group ≠ group)) := by
    funext n
    simp
  have hnodes : nodesOf (filterNodesByGroup regFlow group)
      = (nodesOf regFlow).filter (fun n => decide (n.Group ≠ group)) := by
    rw [filterNodesByGroup_eq, nodesOf_without, hpred]
  refine ⟨?_, hnodes, ?_, ?_, ?_, ?_⟩
  · intro ui hui
    obtain ⟨id, ui', ctx⟩ := regFlow
    simp only at hui
    subst hui
    rw [filterNodesByGroup_eq]
    cases ctx <;> simp [without]
  · rw [hnodes]
    exact List.filter_sublist _
  · intro n
    rw [hnodes, List.mem_filter]
    simp
  · intro hnil
    obtain ⟨id, ui, ctx⟩ := regFlow
    simp only at hnil
    subst hnil
    rfl
  · intro hempty
    obtain ⟨id, ui, ctx⟩ := regFlow
    cases ui with
    | none => rfl
    | some c =>
      obtain ⟨action, method, nodes⟩ := c
      simp only [nodesOf] at hempty
      subst hempty
      rfl

theorem mem_prunedKeys (R : Registry) (allowed : List CredentialsType) (k : String) :
    k ∈ prunedKeys R allowed
      ↔ ∃ ct ∈ R.AllCredentialTypes, ct ∉ allowed ∧ k ∈ cleanupKeys R ct := by
  unfold prunedKeys
  simp only [List.mem_flatMap, mem_disallowed]
  constructor
  · rintro ⟨ct, ⟨h1, h2⟩, h3⟩
    exact ⟨ct, h1, h2, h3⟩
  · rintro ⟨ct, h1, h2, h3⟩
    exact ⟨ct, ⟨h1, h2⟩, h3⟩

theorem mem_prunedGroups (R : Registry) (allowed : List CredentialsType) (g : UiNodeGroup)
    (h : g ∈ prunedGroups R allowed) :
    g ∈ (disallowed allowed R.AllCredentialTypes).map R.ToUiNodeGroup := by
  unfold prunedGroups at h
  obtain ⟨ct, hct, hg⟩ := List.mem_flatMap.1 h
  unfold groupsOf at hg
  split at hg
  · rw [List.mem_singleton] at hg
    exact List.mem_map.2 ⟨ct, hct, hg.symm⟩
  · simp at hg

/-- C19: PruneRegistrationFlow changes the context document only by deleting registered
cleanup keys of known credential types outside the allow-set: the document after the
call is the document before it without the members of a set of such keys, every other
key keeps its value, and AllowedRegistrationMethods returns the same set after the call
as before it. -/
theorem prune_only_deletes_cleanup_keys (R : Registry) (regFlow : registration.Flow) :
    (∃ keys : List String,
      (∀ k ∈ keys, ∃ ct ∈ R.AllCredentialTypes,
        ct ∉ AllowedRegistrationMethods R regFlow ∧ k ∈ cleanupKeys R ct)
      ∧ (PruneRegistrationFlow R regFlow).1.InternalContext
          = regFlow.InternalContext.map
              (fun members => members.filter (fun kv => decide (kv.1 ∉ keys)))
      ∧ ∀ k, k ∉ keys →
          GetBytes (PruneRegistrationFlow R regFlow).1.InternalContext k
            = GetBytes regFlow.InternalContext k)
    ∧ AllowedRegistrationMethods R (PruneRegistrationFlow R regFlow).1
        = AllowedRegistrationMethods R regFlow := by
  rw [PruneRegistrationFlow_eq]
  by_cases hallowed : AllowedRegistrationMethods R regFlow = []
  · rw [if_pos hallowed]
    refine ⟨⟨[], ?_, ?_, ?_⟩, rfl⟩
    · intro k hk
      simp at hk
    · have := congrArg registration.Flow.InternalContext (without_nil regFlow)
      exact this.symm
    · intro k _
      rfl
  · rw [if_neg hallowed]
    refine ⟨⟨prunedKeys R (AllowedRegistrationMethods R regFlow), ?_, rfl, ?_⟩, ?_⟩
    · intro k hk
      exact (mem_prunedKeys R _ k).1 hk
    · intro k hk
      rw [GetBytes_without, if_neg hk]
    · exact AllowedRegistrationMethods_congr R _ _ (GetBytes_allowedKey_pruned R regFlow _ _)

/-- C20: the node sequence after PruneRegistrationFlow is a subsequence of the sequence
before it, and it retains, in their original relative order, all nodes whose group is
not the mapped group of a known credential type outside the allow-set. -/
theorem prune_retains_nodes_of_other_groups (R : Registry) (regFlow : registration.Flow) :
    (nodesOf (PruneRegistrationFlow R regFlow).1).Sublist (nodesOf regFlow)
    ∧ (nodesOf (PruneRegistrationFlow R regFlow).1).filter
          (fun n => decide (n.Group ∉
            (disallowed (AllowedRegistrationMethods R regFlow) R.AllCredentialTypes).map
              R.ToUiNodeGroup))
        = (nodesOf regFlow).filter
          (fun n => decide (n.Group ∉
            (disallowed (AllowedRegistrationMethods R regFlow) R.AllCredentialTypes).map
              R.ToUiNodeGroup))
    ∧ ∀ n ∈ nodesOf regFlow,
        (∀ ct ∈ R.AllCredentialTypes, ct ∉ AllowedRegistrationMethods R regFlow →
          n.Group ≠ R.ToUiNodeGroup ct) →
        n ∈ nodesOf (PruneRegistrationFlow R regFlow).1 := by
  rw [PruneRegistrationFlow_eq]
  by_cases hallowed : AllowedRegistrationMethods R regFlow = []
  · rw [if_pos hallowed]
    exact ⟨List.Sublist.refl _, rfl, fun n hn _ => hn⟩
  · rw [if_neg hallowed]
    simp only [nodesOf_without]
    refine ⟨List.filter_sublist _, ?_, ?_⟩
    · rw [List.filter_filter]
      apply List.filter_congr
      intro n _
      by_cases hn : n.Group ∈
          (disallowed (AllowedRegistrationMethods R regFlow) R.AllCredentialTypes).map
            R.ToUiNodeGroup
      · simp [hn]
      · have hnot : n.Group ∉ prunedGroups R (AllowedRegistrationMethods R regFlow) :=
          fun hmem => hn (mem_prunedGroups R _ _ hmem)
        simp [hn, hnot]
    · intro n hn hgroup
      refine List.mem_filter.2 ⟨hn, ?_⟩
      have hnot : n.Group ∉ prunedGroups R (AllowedRegistrationMethods R regFlow) := by
        intro hmem
        obtain ⟨ct, hct, he⟩ := List.mem_map.1 (mem_prunedGroups R _ _ hmem)
        obtain ⟨hknown, hdis⟩ := (mem_disallowed _ _ _).1 hct
        exact hgroup ct hknown hdis he.symm
      simpa using hnot

end hook

/-! ## Derivation of the immutable identifier traits -/

namespace settings

theorem SetImmutableIdentifierTraits_ok (flow : Flow) (L : List String) :
    (SetImmutableIdentifierTraits (some flow) L).2 = none := by
  cases L with
  | nil =>
    simp only [SetImmutableIdentifierTraits, List.length_nil, if_true]
    exact DeleteBytes_ok _ _ InternalContextKeyImmutableIdentifierTraits_ne_empty
  | cons a rest =>
    have hlen : ¬ (a :: rest).length = 0 := by simp
    simp only [SetImmutableIdentifierTraits, hlen, if_false]
    exact SetBytes_ok _ _ _ InternalContextKeyImmutableIdentifierTraits_ne_empty

theorem read_after_set (flow : Flow) (L : List String) :
    ImmutableIdentifierTraits (SetImmutableIdentifierTraits (some flow) L).1
      = sortedDedupeNonempty L := by
  cases L with
  | nil =>
    have hget := GetBytes_DeleteBytes_self flow.InternalContext
      InternalContextKeyImmutableIdentifierTraits
      InternalContextKeyImmutableIdentifierTraits_ne_empty
    simp only [SetImmutableIdentifierTraits, List.length_nil, if_true, ImmutableIdentifierTraits,
      hget]
    rfl
  | cons a rest =>
    have hlen : ¬ (a :: rest).length = 0 := by simp
    simp only [SetImmutableIdentifierTraits, hlen, if_false]
    rw [read_stored_strings _ (slicesCompact (slicesSort (a :: rest)))]
    · exact stored_filter_eq_spec (a :: rest)
    · exact GetBytes_SetBytes_self _ _ _ InternalContextKeyImmutableIdentifierTraits_ne_empty

theorem set_nil_deletes (flow : Flow) :
    ∃ flow', (SetImmutableIdentifierTraits (some flow) []).1 = some flow'
      ∧ GetBytes flow'.InternalContext InternalContextKeyImmutableIdentifierTraits = none :=
  ⟨_, rfl, GetBytes_DeleteBytes_self _ _ InternalContextKeyImmutableIdentifierTraits_ne_empty⟩

end settings

namespace hook

theorem ne_empty_of_HasPrefix_traits (s : String) (h : HasPrefix s "traits." = true) :
    s ≠ "" := by
  intro he
  rw [he] at h
  revert h
  decide

theorem hasIdentifierCredential_some (cfg : ExtensionConfig) :
    hasIdentifierCredential (some cfg)
      = (cfg.Credentials.Password.Identifier || cfg.Credentials.WebAuthn.Identifier
          || cfg.Credentials.Code.Identifier) := by
  obtain ⟨⟨⟨a⟩, ⟨b⟩, ⟨c⟩⟩⟩ := cfg
  cases a <;> cases b <;> cases c <;> simp [hasIdentifierCredential]

theorem collectImmutable_eq (extensionName : String) (paths : List Path)
    (immutable : List String) :
    collectImmutable extensionName paths immutable
      = immutable ++ identifierTraits extensionName paths := by
  induction paths generalizing immutable with
  | nil => simp [collectImmutable, identifierTraits]
  | cons p rest ih =>
    have hcons : ∀ b : Bool,
        (HasPrefix p.Name "traits." && marksIdentifier extensionName p) = b →
        identifierTraits extensionName (p :: rest)
          = (if b then [p.Name] else []) ++ identifierTraits extensionName rest := by
      intro b hb
      unfold identifierTraits
      rw [List.filter_cons, hb]
      cases b <;> simp
    by_cases hroot : HasPrefix p.Name "traits." = true
    · have hnot : (!HasPrefix p.Name "traits.") = false := by simp [hroot]
      rw [collectImmutable, hnot]
      simp only [Bool.false_eq_true, if_false]
      cases hlook : p.CustomProperties.lookup extensionName with
      | none =>
        have hm : marksIdentifier extensionName p = false := by
          simp [marksIdentifier, hlook]
        rw [ih, hcons false (by rw [hroot, hm]; rfl)]
        rfl
      | some property =>
        cases property with
        | other =>
          have hm : marksIdentifier extensionName p = false := by
            simp [marksIdentifier, hlook]
          rw [ih, hcons false (by rw [hroot, hm]; rfl)]
          rfl
        | extensionConfig cfg =>
          cases cfg with
          | none =>
            have hm : marksIdentifier extensionName p = false := by
              simp [marksIdentifier, hlook]
            rw [ih, hcons false (by rw [hroot, hm]; rfl)]
            rfl
          | some cfg =>
            have hm : marksIdentifier extensionName p = hasIdentifierCredential (some cfg) := by
              rw [hasIdentifierCredential_some]
              simp [marksIdentifier, hlook]
            simp only []
            cases hid : hasIdentifierCredential (some cfg) with
            | true =>
              rw [if_pos rfl, ih, hcons true (by rw [hroot, hm, hid]; rfl)]
              simp
            | false =>
              simp only [Bool.false_eq_true, if_false]
              rw [ih, hcons false (by rw [hroot, hm, hid]; rfl)]
              rfl
    · have hfalse : HasPrefix p.Name "traits." = false := by
        cases hb : HasPrefix p.Name "traits."
        · rfl
        · exact absurd hb hroot
      have hnot : (!HasPrefix p.Name "traits.") = true := by simp [hfalse]
      rw [collectImmutable, hnot, if_pos rfl, ih, hcons false (by rw [hfalse]; rfl)]
      rfl

theorem mem_identifierTraits (extensionName : String) (paths : List Path) (s : String) :
    s ∈ identifierTraits extensionName paths
      ↔ ∃ p ∈ paths, p.Name = s ∧ HasPrefix p.Name "traits." = true
          ∧ marksIdentifier extensionName p = true := by
  unfold identifierTraits
  simp only [List.mem_map, List.mem_filter, Bool.and_eq_true]
  constructor
  · rintro ⟨p, ⟨hp, h1, h2⟩, he⟩
    exact ⟨p, hp, he, h1, h2⟩
  · rintro ⟨p, hp, he, h1, h2⟩
    exact ⟨p, ⟨hp, h1, h2⟩, he⟩

theorem sortedDedupeNonempty_eq_sortedDedupe (names : List String) (h : "" ∉ names) :
    settings.sortedDedupeNonempty names = sortedDedupe names := by
  unfold settings.sortedDedupeNonempty sortedDedupe
  have : names.filter (fun s => decide (s ≠ "")) = names := by
    rw [List.filter_eq_self]
    intro a ha
    have : a ≠ "" := fun e => h (e ▸ ha)
    simpa using this
  rw [this]

theorem ExecuteSettingsPreHook_eq (h : ImmutableIdentifierTraitsHook) (flow : settings.Flow)
    (identity : Identity) (schemas : List Schema) (identitySchema : Schema)
    (paths : List Path) (hbound : flow.Identity = some identity)
    (hschemas : h.d.IdentityTraitsSchemas = Except.ok schemas)
    (hschema : h.d.GetByID schemas identity.SchemaID = Except.ok identitySchema)
    (hrunner : h.d.NewExtensionRunner = Except.ok ())
    (hpaths : h.d.ListPaths identitySchema.URL = Except.ok paths) :
    ExecuteSettingsPreHook h (some flow)
      = settings.SetImmutableIdentifierTraits (some flow)
          (identifierTraits h.d.ExtensionName paths) := by
  unfold ExecuteSettingsPreHook
  simp only [hbound, hschemas, hschema, hrunner, hpaths, collectImmutable_eq, List.nil_append]

/-- C14: for a settings flow bound to an identity, when the collaborators succeed and the
path enumerator returns a list of paths, ExecuteSettingsPreHook succeeds and
ImmutableIdentifierTraits then reads exactly the sorted, deduplicated list of the names
of those paths that start with the traits root and whose schema extension config marks
them as identifier of the password, WebAuthn or code credential; when no path qualifies
the key is deleted and the read is empty, whatever was persisted before. -/
theorem settings_pre_hook_persists_identifier_traits (h : ImmutableIdentifierTraitsHook)
    (flow : settings.Flow) (identity : Identity) (schemas : List Schema)
    (identitySchema : Schema) (paths : List Path)
    (hbound : flow.Identity = some identity)
    (hschemas : h.d.IdentityTraitsSchemas = Except.ok schemas)
    (hschema : h.d.GetByID schemas identity.SchemaID = Except.ok identitySchema)
    (hrunner : h.d.NewExtensionRunner = Except.ok ())
    (hpaths : h.d.ListPaths identitySchema.URL = Except.ok paths) :
    (ExecuteSettingsPreHook h (some flow)).2 = none
    ∧ settings.ImmutableIdentifierTraits (ExecuteSettingsPreHook h (some flow)).1
        = sortedDedupe (identifierTraits h.d.ExtensionName paths)
    ∧ (settings.ImmutableIdentifierTraits (ExecuteSettingsPreHook h (some flow)).1).Sorted
        (fun a b => a < b)
    ∧ (∀ s, s ∈ settings.ImmutableIdentifierTraits (ExecuteSettingsPreHook h (some flow)).1
        ↔ ∃ p ∈ paths, p.Name = s ∧ HasPrefix p.Name "traits." = true
            ∧ marksIdentifier h.d.ExtensionName p = true)
    ∧ (identifierTraits h.d.ExtensionName paths = [] →
        settings.ImmutableIdentifierTraits (ExecuteSettingsPreHook h (some flow)).1 = []
        ∧ ∃ flow', (ExecuteSettingsPreHook h (some flow)).1 = some flow'
            ∧ GetBytes flow'.InternalContext
                settings.InternalContextKeyImmutableIdentifierTraits = none) := by
  rw [ExecuteSettingsPreHook_eq h flow identity schemas identitySchema paths hbound hschemas
    hschema hrunner hpaths]
  have hnames : "" ∉ identifierTraits h.d.ExtensionName paths := by
    intro hmem
    obtain ⟨p, _, he, hroot, _⟩ := (mem_identifierTraits _ _ _).1 hmem
    exact ne_empty_of_HasPrefix_traits p.Name hroot he
  have hread := settings.read_after_set flow (identifierTraits h.d.ExtensionName paths)
  refine ⟨settings.SetImmutableIdentifierTraits_ok flow _, ?_, ?_, ?_, ?_⟩
  · rw [hread, sortedDedupeNonempty_eq_sortedDedupe _ hnames]
  · rw [hread]
    exact settings.sorted_sortedDedupeNonempty _
  · intro s
    rw [hread, settings.mem_sortedDedupeNonempty, mem_identifierTraits]
    constructor
    · exact fun hs => hs.1
    · rintro ⟨p, hp, he, hroot, hm⟩
      exact ⟨⟨p, hp, he, hroot, hm⟩, he ▸ ne_empty_of_HasPrefix_traits p.Name hroot⟩
  · intro hnone
    rw [hnone]
    exact ⟨settings.read_after_set flow [], settings.set_nil_deletes flow⟩

theorem settings_pre_hook_persists_identifier_traits_witness :
    scenarioSettingsFlow.Identity = some scenarioIdentity
    ∧ identifierTraits "ory.sh/kratos" scenarioPaths = ["traits.email"]
    ∧ (ExecuteSettingsPreHook { d := scenarioDependencies } (some scenarioSettingsFlow)).2 = none
    ∧ settings.ImmutableIdentifierTraits
        (ExecuteSettingsPreHook { d := scenarioDependencies } (some scenarioSettingsFlow)).1
        = sortedDedupe (identifierTraits "ory.sh/kratos" scenarioPaths) :=
  ⟨rfl, by decide,
    (settings_pre_hook_persists_identifier_traits { d := scenarioDependencies }
      scenarioSettingsFlow _ _ _ scenarioPaths rfl rfl rfl rfl rfl).1,
    (settings_pre_hook_persists_identifier_traits { d := scenarioDependencies }
      scenarioSettingsFlow _ _ _ scenarioPaths rfl rfl rfl rfl rfl).2.1⟩

/-- C15: for a settings flow bound to an identity, when schema-set resolution, schema
lookup by ID, the extension runner or path enumeration fails, ExecuteSettingsPreHook
returns that error and leaves the flow, its context document with it, exactly as it
was. -/
theorem settings_pre_hook_failure_leaves_the_flow (h : ImmutableIdentifierTraitsHook)
    (flow : settings.Flow) (identity : Identity) (err : Error)
    (hbound : flow.Identity = some identity)
    (hfail : h.d.IdentityTraitsSchemas = Except.error err
      ∨ (∃ schemas, h.d.IdentityTraitsSchemas = Except.ok schemas
          ∧ h.d.GetByID schemas identity.SchemaID = Except.error err)
      ∨ (∃ schemas identitySchema, h.d.IdentityTraitsSchemas = Except.ok schemas
          ∧ h.d.GetByID schemas identity.SchemaID = Except.ok identitySchema
          ∧ h.d.NewExtensionRunner = Except.error err)
      ∨ (∃ schemas identitySchema, h.d.IdentityTraitsSchemas = Except.ok schemas
          ∧ h.d.GetByID schemas identity.SchemaID = Except.ok identitySchema
          ∧ h.d.NewExtensionRunner = Except.ok ()
          ∧ h.d.ListPaths identitySchema.URL = Except.error err)) :
    ExecuteSettingsPreHook h (some flow) = (some flow, some err) := by
  unfold ExecuteSettingsPreHook
  rcases hfail with h1 | ⟨schemas, h1, h2⟩ | ⟨schemas, identitySchema, h1, h2, h3⟩
    | ⟨schemas, identitySchema, h1, h2, h3, h4⟩
  · simp only [hbound, h1]
  · simp only [hbound, h1, h2]
  · simp only [hbound, h1, h2, h3]
  · simp only [hbound, h1, h2, h3, h4]

theorem settings_pre_hook_failure_leaves_the_flow_witness :
    scenarioSettingsFlow.Identity = some scenarioIdentity
    ∧ ExecuteSettingsPreHook { d := failingDependencies } (some scenarioSettingsFlow)
        = (some scenarioSettingsFlow, some (Error.collaborator "compile")) :=
  ⟨rfl,
    settings_pre_hook_failure_leaves_the_flow { d := failingDependencies } scenarioSettingsFlow
      _ (Error.collaborator "compile") rfl
      (Or.inr (Or.inr (Or.inr ⟨_, _, rfl, rfl, rfl, rfl⟩)))⟩

end hook

/-! ## Lemmas on dotted-path addressing -/

theorem JsonMembers.find_replace_self (key : String) (value : Json) :
    ∀ members : JsonMembers, (members.replace key value).find key = some value
  | JsonMembers.nil => by simp [JsonMembers.replace, JsonMembers.find]
  | JsonMembers.cons k v tail => by
    by_cases h : k = key
    · simp [JsonMembers.replace, JsonMembers.find, h]
    · simp [JsonMembers.replace, JsonMembers.find, h,
        JsonMembers.find_replace_self key value tail]

theorem JsonMembers.find_replace_ne (key other : String) (value : Json) (h : other ≠ key) :
    ∀ members : JsonMembers, (members.replace key value).find other = members.find other
  | JsonMembers.nil => by
    have h' : ¬ key = other := fun e => h e.symm
    simp [JsonMembers.replace, JsonMembers.find, h']
  | JsonMembers.cons k v tail => by
    by_cases hk : k = key
    · have h' : ¬ key = other := fun e => h e.symm
      simp [JsonMembers.replace, JsonMembers.find, hk, h']
    · by_cases ho : k = other
      · subst ho
        simp [JsonMembers.replace, JsonMembers.find, hk]
      · simp [JsonMembers.replace, JsonMembers.find, hk, ho,
          JsonMembers.find_replace_ne key other value h tail]

theorem JsonMembers.replace_self (key : String) (value : Json) :
    ∀ members : JsonMembers, members.find key = some value → members.replace key value = members
  | JsonMembers.nil => by simp [JsonMembers.find]
  | JsonMembers.cons k v tail => by
    intro hfind
    by_cases hk : k = key
    · simp only [JsonMembers.find, hk, if_true, Option.some.injEq] at hfind
      simp [JsonMembers.replace, hk, hfind]
    · simp only [JsonMembers.find, hk, if_false] at hfind
      simp [JsonMembers.replace, hk, JsonMembers.replace_self key value tail hfind]

theorem Json.eq_object_of_find (json : Json) (key : String) (child : Json)
    (h : json.members.find key = some child) : json = Json.object json.members := by
  cases json <;> first | rfl | simp [Json.members, JsonMembers.find] at h

theorem Json.get_cons (segment : String) (rest : List String) (json : Json) :
    Json.get (segment :: rest) json
      = match json.members.find segment with
        | none => none
        | some child => Json.get rest child := rfl

theorem Json.get_cons_object_nil (segment : String) (rest : List String) :
    Json.get (segment :: rest) (Json.object JsonMembers.nil) = none := rfl

theorem Json.get_cons_set_cons_ne (t s : String) (p q : List String) (w m : Json)
    (h : t ≠ s) :
    Json.get (t :: p) (Json.set (s :: q) m w) = Json.get (t :: p) m := by
  rw [Json.get_cons, Json.get_cons]
  simp only [Json.set, Json.members]
  rw [JsonMembers.find_replace_ne s t _ h]

theorem Json.get_cons_set_cons_self (s : String) (p q : List String) (w m : Json) :
    Json.get (s :: p) (Json.set (s :: q) m w)
      = Json.get p (Json.set q ((m.members.find s).getD (Json.object JsonMembers.nil)) w) := by
  rw [Json.get_cons]
  simp only [Json.set, Json.members]
  rw [JsonMembers.find_replace_self]

/-- Reading at the path just written yields the value written. -/
theorem Json.get_set_self (p : List String) (w m : Json) :
    Json.get p (Json.set p m w) = some w := by
  induction p generalizing m with
  | nil => rfl
  | cons s rest ih => rw [Json.get_cons_set_cons_self, ih]

/-- Writing at a path a value of the current document leaves every path agreeing with
the current document in agreement with it. -/
theorem Json.get_set_of_agree (q : List String) :
    ∀ (p : List String) (m current w : Json), Json.get q current = some w →
      Json.get p m = Json.get p current → Json.get p (Json.set q m w) = Json.get p current := by
  induction q with
  | nil =>
    intro p m current w hq _
    simp only [Json.get, Option.some.injEq] at hq
    subst hq
    rfl
  | cons s q ih =>
    intro p m current w hq hp
    rw [Json.get_cons] at hq
    cases hfind : current.members.find s with
    | none =>
      rw [hfind] at hq
      cases hq
    | some cc =>
      rw [hfind] at hq
      simp only at hq
      cases p with
      | nil =>
        simp only [Json.get, Option.some.injEq] at hp
        subst hp
        have hchild : Json.set q cc w = cc := by
          have := ih [] cc cc w hq rfl
          simpa [Json.get] using this
        have hobj := Json.eq_object_of_find m s cc hfind
        simp only [Json.get, Option.some.injEq, Json.set, hfind, Option.getD_some, hchild]
        rw [JsonMembers.replace_self s cc _ hfind]
        exact hobj.symm
      | cons t p =>
        by_cases hts : t = s
        · subst hts
          rw [Json.get_cons_set_cons_self]
          have hcur : Json.get (t :: p) current = Json.get p cc := by
            rw [Json.get_cons, hfind]
          rw [hcur] at hp ⊢
          apply ih p _ cc w hq
          rw [Json.get_cons] at hp
          cases hm : m.members.find t with
          | some child =>
            rw [hm] at hp
            exact hp
          | none =>
            rw [hm] at hp
            simp only [Option.getD_none]
            cases p with
            | nil => simp [Json.get] at hp
            | cons u p' =>
              rw [Json.get_cons_object_nil]
              exact hp
        · rw [Json.get_cons_set_cons_ne t s p q w m hts]
          exact hp

/-- Writing at a path leaves every path alone that neither leads to it nor goes on
from it. -/
theorem Json.get_set_independent (q : List String) :
    ∀ (p : List String) (m w : Json), ¬ q <+: p → ¬ p <+: q →
      Json.get p (Json.set q m w) = Json.get p m := by
  induction q with
  | nil =>
    intro p m w hqp _
    exact absurd (List.nil_prefix) hqp
  | cons s q ih =>
    intro p m w hqp hpq
    cases p with
    | nil => exact absurd (List.nil_prefix) hpq
    | cons t p =>
      by_cases hts : t = s
      · subst hts
        have h1 : ¬ q <+: p := fun h => hqp ((List.prefix_cons_inj t).2 h)
        have h2 : ¬ p <+: q := fun h => hpq ((List.prefix_cons_inj t).2 h)
        rw [Json.get_cons_set_cons_self, ih p _ w h1 h2, Json.get_cons]
        cases hm : m.members.find t with
        | some child => rfl
        | none =>
          simp only [Option.getD_none]
          cases p with
          | nil => exact absurd (List.nil_prefix) h2
          | cons u p' => rfl
      · exact Json.get_cons_set_cons_ne t s p q w m hts

/-! ## Enforcement of the immutable identifier traits -/

namespace profile

theorem sanitizePaths_error (current candidate : Json) (paths : List String)
    (merged : Json) (err : Error)
    (h : sanitizePaths current candidate paths merged = Except.error err) :
    ∃ path ∈ paths, ∃ submitted, candidate.get (traitPath path) = some submitted
      ∧ current.get (traitPath path) ≠ some submitted ∧ err = Error.validation path := by
  induction paths generalizing merged with
  | nil => cases h
  | cons path rest ih =>
    rw [sanitizePaths] at h
    cases hc : candidate.get (traitPath path) with
    | none =>
      rw [hc] at h
      cases hcur : current.get (traitPath path) with
      | none =>
        rw [hcur] at h
        obtain ⟨p, hp, hrest⟩ := ih merged h
        exact ⟨p, List.mem_cons_of_mem _ hp, hrest⟩
      | some value =>
        rw [hcur] at h
        obtain ⟨p, hp, hrest⟩ := ih _ h
        exact ⟨p, List.mem_cons_of_mem _ hp, hrest⟩
    | some submitted =>
      rw [hc] at h
      by_cases heq : current.get (traitPath path) = some submitted
      · simp only [heq, if_true] at h
        obtain ⟨p, hp, hrest⟩ := ih merged h
        exact ⟨p, List.mem_cons_of_mem _ hp, hrest⟩
      · simp only [heq, if_false, Except.error.injEq] at h
        exact ⟨path, List.mem_cons_self _ _, submitted, hc, heq, h.symm⟩

/-- One round of the enforcement loop that goes on: the path is unchanged in the
candidate, and the merged document is kept or has the current value written at the
path. -/
theorem sanitizePaths_cons (current candidate : Json) (path : String) (rest : List String)
    (merged out : Json)
    (h : sanitizePaths current candidate (path :: rest) merged = Except.ok out) :
    (∀ submitted, candidate.get (traitPath path) = some submitted →
      current.get (traitPath path) = some submitted)
    ∧ ∃ next, sanitizePaths current candidate rest next = Except.ok out
        ∧ ((next = merged
            ∧ (candidate.get (traitPath path) = none → current.get (traitPath path) = none))
          ∨ ∃ value, candidate.get (traitPath path) = none
              ∧ current.get (traitPath path) = some value
              ∧ next = merged.set (traitPath path) value) := by
  rw [sanitizePaths] at h
  cases hc : candidate.get (traitPath path) with
  | none =>
    rw [hc] at h
    refine ⟨fun submitted hs => (by cases hs), ?_⟩
    cases hcur : current.get (traitPath path) with
    | none =>
      rw [hcur] at h
      exact ⟨merged, h, Or.inl ⟨rfl, fun _ => rfl⟩⟩
    | some value =>
      rw [hcur] at h
      exact ⟨_, h, Or.inr ⟨value, rfl, rfl, rfl⟩⟩
  | some submitted =>
    rw [hc] at h
    by_cases heq : current.get (traitPath path) = some submitted
    · simp only [heq, if_true] at h
      refine ⟨fun s hs => ?_, merged, h, Or.inl ⟨rfl, fun hn => by cases hn⟩⟩
      rw [← Option.some.inj hs]
      exact heq
    · simp only [heq, if_false] at h
      cases h

theorem sanitizePaths_unchanged (current candidate : Json) (paths : List String)
    (merged out : Json) (h : sanitizePaths current candidate paths merged = Except.ok out) :
    ∀ path ∈ paths, ∀ submitted, candidate.get (traitPath path) = some submitted →
      current.get (traitPath path) = some submitted := by
  induction paths generalizing merged with
  | nil => simp
  | cons path rest ih =>
    obtain ⟨hhead, next, hnext, _⟩ := sanitizePaths_cons _ _ _ _ _ _ h
    intro p hp
    rcases List.mem_cons.1 hp with e | e
    · rw [e]
      exact hhead
    · exact ih next hnext p e

theorem sanitizePaths_keeps_agreement (current candidate : Json) (paths : List String)
    (merged out : Json) (h : sanitizePaths current candidate paths merged = Except.ok out)
    (p : List String) (hp : merged.get p = current.get p) : out.get p = current.get p := by
  induction paths generalizing merged with
  | nil =>
    simp only [sanitizePaths, Except.ok.injEq] at h
    rw [← h]
    exact hp
  | cons path rest ih =>
    obtain ⟨_, next, hnext, hcase⟩ := sanitizePaths_cons _ _ _ _ _ _ h
    rcases hcase with ⟨he, _⟩ | ⟨value, _, hcur, he⟩
    · exact ih next hnext (he ▸ hp)
    · exact ih next hnext (he ▸ Json.get_set_of_agree _ p merged current value hcur hp)

theorem sanitizePaths_fills (current candidate : Json) (paths : List String)
    (merged out : Json) (h : sanitizePaths current candidate paths merged = Except.ok out)
    (path : String) (hpath : path ∈ paths)
    (habsent : candidate.get (traitPath path) = none)
    (hfresh : current.get (traitPath path) = none → merged.get (traitPath path) = none) :
    out.get (traitPath path) = current.get (traitPath path) := by
  induction paths generalizing merged with
  | nil => simp at hpath
  | cons head rest ih =>
    obtain ⟨_, next, hnext, hcase⟩ := sanitizePaths_cons _ _ _ _ _ _ h
    rcases List.mem_cons.1 hpath with e | e
    · subst e
      rcases hcase with ⟨he, hnone⟩ | ⟨value, _, hcur, he⟩
      · refine sanitizePaths_keeps_agreement _ _ _ _ _ hnext _ ?_
        rw [he, hfresh (hnone habsent), hnone habsent]
      · refine sanitizePaths_keeps_agreement _ _ _ _ _ hnext _ ?_
        rw [he, Json.get_set_self, hcur]
    · refine ih next hnext e ?_
      rcases hcase with ⟨he, _⟩ | ⟨value, _, hcur, he⟩
      · rw [he]
        exact hfresh
      · intro hnone
        rw [he, Json.get_set_of_agree _ _ merged current value hcur
          (by rw [hfresh hnone, hnone]), hnone]

theorem sanitizePaths_frame (current candidate : Json) (paths : List String)
    (merged out : Json) (h : sanitizePaths current candidate paths merged = Except.ok out)
    (q : List String)
    (hq : ∀ path ∈ paths, ¬ traitPath path <+: q ∧ ¬ q <+: traitPath path) :
    out.get q = merged.get q := by
  induction paths generalizing merged with
  | nil =>
    simp only [sanitizePaths, Except.ok.injEq] at h
    rw [h]
  | cons path rest ih =>
    obtain ⟨_, next, hnext, hcase⟩ := sanitizePaths_cons _ _ _ _ _ _ h
    have hrest := ih next hnext (fun p hp => hq p (List.mem_cons_of_mem _ hp))
    have hhead := hq path (List.mem_cons_self _ _)
    rcases hcase with ⟨he, _⟩ | ⟨value, _, _, he⟩
    · rw [hrest, he]
    · rw [hrest, he, Json.get_set_independent _ q merged value hhead.1 hhead.2]

theorem sanitizePaths_returns (current candidate : Json) (paths : List String)
    (merged : Json)
    (h : ∀ path ∈ paths, ∀ submitted, candidate.get (traitPath path) = some submitted →
      current.get (traitPath path) = some submitted) :
    ∃ out, sanitizePaths current candidate paths merged = Except.ok out := by
  cases hres : sanitizePaths current candidate paths merged with
  | ok out => exact ⟨out, rfl⟩
  | error err =>
    obtain ⟨p, hp, submitted, hs, hne, _⟩ := sanitizePaths_error _ _ _ _ _ hres
    exact absurd (h p hp submitted hs) hne

theorem sanitizePaths_fails (current candidate : Json) (paths : List String)
    (merged : Json) (path : String) (submitted : Json) (hpath : path ∈ paths)
    (hs : candidate.get (traitPath path) = some submitted)
    (hne : current.get (traitPath path) ≠ some submitted) :
    ∃ err, sanitizePaths current candidate paths merged = Except.error err := by
  cases hres : sanitizePaths current candidate paths merged with
  | error err => exact ⟨err, rfl⟩
  | ok out =>
    exact absurd (sanitizePaths_unchanged _ _ _ _ _ hres path hpath submitted hs) hne

/-- C12: when an immutable path persisted on the flow is absent from the candidate,
sanitizeImmutableIdentifierTraits raises no error for that path, it returns a merged
document whenever no immutable path is changed, and every merged document it returns
holds at that path, addressed by its dots, the current document's value, and holds the
candidate's value at every path that neither leads to an immutable path nor goes on
from one. -/
theorem sanitize_takes_absent_immutable_path_from_current (flow : settings.Flow)
    (identity : Identity) (candidate : Json) (path : String)
    (hpath : path ∈ settings.ImmutableIdentifierTraits (some flow))
    (habsent : candidate.get (traitPath path) = none) :
    sanitizeImmutableIdentifierTraits flow identity candidate
        ≠ Except.error (Error.validation path)
    ∧ ((∀ other ∈ settings.ImmutableIdentifierTraits (some flow), ∀ submitted,
          candidate.get (traitPath other) = some submitted →
          identity.Traits.get (traitPath other) = some submitted) →
        ∃ merged, sanitizeImmutableIdentifierTraits flow identity candidate = Except.ok merged)
    ∧ ∀ merged, sanitizeImmutableIdentifierTraits flow identity candidate = Except.ok merged →
        merged.get (traitPath path) = identity.Traits.get (traitPath path)
        ∧ ∀ q, (∀ other ∈ settings.ImmutableIdentifierTraits (some flow),
              ¬ traitPath other <+: q ∧ ¬ q <+: traitPath other) →
            merged.get q = candidate.get q := by
  unfold sanitizeImmutableIdentifierTraits
  refine ⟨?_, ?_, ?_⟩
  · intro herr
    obtain ⟨p, _, submitted, hs, _, he⟩ := sanitizePaths_error _ _ _ _ _ herr
    simp only [Error.validation.injEq] at he
    rw [← he, habsent] at hs
    cases hs
  · exact sanitizePaths_returns _ _ _ _
  · intro merged hok
    exact ⟨sanitizePaths_fills _ _ _ _ _ hok path hpath habsent (fun _ => habsent),
      fun q hq => sanitizePaths_frame _ _ _ _ _ hok q hq⟩

theorem sanitize_takes_absent_immutable_path_from_current_witness :
    "traits.email" ∈ settings.ImmutableIdentifierTraits (some testSettingsFlow)
    ∧ renamedCandidate.get (traitPath "traits.email") = none
    ∧ sanitizeImmutableIdentifierTraits testSettingsFlow testIdentity renamedCandidate
        = Except.ok (Json.object
            (JsonMembers.cons "name" (Json.string "Bar")
              (JsonMembers.cons "email" (Json.string "foo@ory.sh") JsonMembers.nil)))
    ∧ sanitizeImmutableIdentifierTraits testSettingsFlow testIdentity renamedCandidate
        ≠ Except.error (Error.validation "traits.email") :=
  ⟨by decide, by decide, rfl,
    (sanitize_takes_absent_immutable_path_from_current testSettingsFlow testIdentity
      renamedCandidate "traits.email" (by decide) (by decide)).1⟩

/-- C13: when some immutable path persisted on the flow is present in the candidate
with a value different from the current document's value at that path,
sanitizeImmutableIdentifierTraits fails with a validation error naming such a path and
produces no merged document; when every immutable path present in the candidate has the
current value, it does not fail and returns a merged document. -/
theorem sanitize_fails_exactly_on_a_changed_immutable_path (flow : settings.Flow)
    (identity : Identity) (candidate : Json) :
    ((∃ path ∈ settings.ImmutableIdentifierTraits (some flow), ∃ submitted,
          candidate.get (traitPath path) = some submitted
          ∧ identity.Traits.get (traitPath path) ≠ some submitted) →
      ∃ path ∈ settings.ImmutableIdentifierTraits (some flow), ∃ submitted,
          candidate.get (traitPath path) = some submitted
          ∧ identity.Traits.get (traitPath path) ≠ some submitted
          ∧ sanitizeImmutableIdentifierTraits flow identity candidate
              = Except.error (Error.validation path))
    ∧ ((∀ path ∈ settings.ImmutableIdentifierTraits (some flow), ∀ submitted,
          candidate.get (traitPath path) = some submitted →
          identity.Traits.get (traitPath path) = some submitted) →
      ∃ merged, sanitizeImmutableIdentifierTraits flow identity candidate = Except.ok merged) := by
  unfold sanitizeImmutableIdentifierTraits
  constructor
  · rintro ⟨path, hpath, submitted, hs, hne⟩
    obtain ⟨err, herr⟩ := sanitizePaths_fails _ _ _ candidate path submitted hpath hs hne
    obtain ⟨p, hp, s, h1, h2, he⟩ := sanitizePaths_error _ _ _ _ _ herr
    exact ⟨p, hp, s, h1, h2, he ▸ herr⟩
  · exact sanitizePaths_returns _ _ _ _

theorem sanitize_fails_exactly_on_a_changed_immutable_path_witness :
    settings.ImmutableIdentifierTraits (some testSettingsFlow) = ["traits.email"]
    ∧ changedEmailCandidate.get (traitPath "traits.email") = some (Json.string "bar@ory.sh")
    ∧ testIdentity.Traits.get (traitPath "traits.email") ≠ some (Json.string "bar@ory.sh")
    ∧ sanitizeImmutableIdentifierTraits testSettingsFlow testIdentity changedEmailCandidate
        = Except.error (Error.validation "traits.email")
    ∧ (∃ path ∈ settings.ImmutableIdentifierTraits (some testSettingsFlow), ∃ submitted,
        changedEmailCandidate.get (traitPath path) = some submitted
        ∧ testIdentity.Traits.get (traitPath path) ≠ some submitted
        ∧ sanitizeImmutableIdentifierTraits testSettingsFlow testIdentity changedEmailCandidate
            = Except.error (Error.validation path))
    ∧ ∃ merged, sanitizeImmutableIdentifierTraits testSettingsFlow testIdentity renamedCandidate
        = Except.ok merged :=
  ⟨by decide, by decide, by decide, rfl,
    (sanitize_fails_exactly_on_a_changed_immutable_path testSettingsFlow testIdentity
      changedEmailCandidate).1
      ⟨"traits.email", by decide, Json.string "bar@ory.sh", by decide, by decide⟩,
    (sanitize_fails_exactly_on_a_changed_immutable_path testSettingsFlow testIdentity
      renamedCandidate).2 (fun path hp submitted hs => by
        have hlist : settings.ImmutableIdentifierTraits (some testSettingsFlow)
            = ["traits.email"] := by decide
        rw [hlist, List.mem_singleton] at hp
        subst hp
        have hnone : renamedCandidate.get (traitPath "traits.email") = none := by decide
        rw [hnone] at hs
        cases hs)⟩

/-- A nested immutable path absent from the candidate is taken from the current
document, at its place inside the document. -/
theorem sanitize_fills_absent_nested_value :
    sanitizeImmutableIdentifierTraits nestedSettingsFlow nestedIdentity renamedCandidate
      = Except.ok (Json.object
          (JsonMembers.cons "name" (Json.string "Bar")
            (JsonMembers.cons "address"
              (Json.object (JsonMembers.cons "email" (Json.string "foo@ory.sh") JsonMembers.nil))
              JsonMembers.nil))) :=
  rfl

/-- A candidate that changes a nested immutable value is rejected with a validation
error naming the path. -/
theorem sanitize_rejects_changed_nested_value :
    sanitizeImmutableIdentifierTraits nestedSettingsFlow nestedIdentity
        (Json.object
          (JsonMembers.cons "address"
            (Json.object (JsonMembers.cons "email" (Json.string "bar@ory.sh") JsonMembers.nil))
            JsonMembers.nil))
      = Except.error (Error.validation "traits.address.email") :=
  rfl

end profile

end Kratos
